import Mathlib

/-!
# The prime oracle of `go/pkg/sieve/sieve.go`

A shallow embedding of `generatePrimesUpTo` and `Prime.NthPrime`, and the
properties of the cache-augmented segmented sieve proved about it.

Modelling decisions.

* `int64` and `int` values are integers (`Int`, or `Nat` where the source keeps
  them at least 2). No operation of the source wraps as long as the cache
  entries and the bound `maxPrime` stay below `2^63 - 10^6`; the embedding is the
  source on that range.
* `[]bool` and `[]int64` slices are lists; `append` adds at the end.
* The bound `maxPrime` is computed by the source in floating point
  (`int64(nf*(math.Log(nf)+math.Log(math.Log(nf)))+1) + 10`). The embedding takes
  the map from the index `n` to that bound as a parameter `maxPrimeOf`.
* `int64(math.Sqrt(float64(maxPrime)))` is the integer square root of
  `maxPrime` (and the base sieve receives a limit below 2 when `maxPrime` is
  negative), which `floorSqrt` computes.
* A read `p.Primes[int(n)]` outside the slice is a run-time panic of the source;
  the embedding returns `none` for the value then, together with the cache as
  the call left it. The message printed for a negative index is not modelled.
* Writes to and reads from the boolean slices are the total list operations: a
  write outside the slice changes nothing and a read outside it gives `false`.
  The checked forms (`NthPrimeChecked`, `generatePrimesUpToChecked`) test every
  access and every loop instead, and name the place where a run stops.
* Loops with a plain counter are folds over the range of the counter. The other
  loops recurse on a fuel argument that the caller sets to a number of passes
  the loop cannot exceed.
-/

namespace Sieve

/-! ## `generatePrimesUpTo` -/

/-- The boolean slice `isPrime` after `make([]bool, limit+1)` and the loop that
sets the entries `2 .. limit`. -/
def initFlags (limit : Nat) : List Bool :=
  (List.range' 2 (limit - 1)).foldl (fun isPrime i => isPrime.set i true)
    (List.replicate (limit + 1) false)

/-- The inner loop `for j := i * i; j <= limit; j += i { isPrime[j] = false }`,
entered at `j`. -/
def markMultiples (limit i : Nat) : Nat → Nat → List Bool → List Bool
  | 0, _, isPrime => isPrime
  | fuel + 1, j, isPrime =>
    if j ≤ limit then markMultiples limit i fuel (j + i) (isPrime.set j false)
    else isPrime

/-- The outer loop `for i := 2; i*i <= limit; i++`, entered at `i`. -/
def sieveLoop (limit : Nat) : Nat → Nat → List Bool → List Bool
  | 0, _, isPrime => isPrime
  | fuel + 1, i, isPrime =>
    if i * i ≤ limit then
      sieveLoop limit fuel (i + 1)
        (if isPrime.getD i false then markMultiples limit i (limit + 1) (i * i) isPrime
         else isPrime)
    else isPrime

/-- The final loop of `generatePrimesUpTo`: the indices `2 .. limit` whose flag
is still set, in increasing order. -/
def collectPrimes (limit : Nat) (isPrime : List Bool) : List Int :=
  (List.range' 2 (limit - 1)).foldl
    (fun primes i => if isPrime.getD i false then primes ++ [(i : Int)] else primes) []

/-- The function `generatePrimesUpTo` of the source (sieve of Eratosthenes). -/
def generatePrimesUpTo (limit : Int) : List Int :=
  if limit < 2 then []
  else
    collectPrimes limit.toNat (sieveLoop limit.toNat limit.toNat 2 (initFlags limit.toNat))

/-! ## `Prime.NthPrime` -/

/-- The constant `segmentSize` of the source. -/
def segmentSize : Int := 1000000

/-- Integer part of the square root by a downward search: the largest `q ≤ r`
with `q * q ≤ x`. -/
def floorSqrtFrom (x : Nat) : Nat → Nat
  | 0 => 0
  | r + 1 => if (r + 1) * (r + 1) ≤ x then r + 1 else floorSqrtFrom x r

/-- The value `int64(math.Sqrt(float64(x)))` for `x ≥ 0`. -/
def floorSqrt (x : Nat) : Nat := floorSqrtFrom x x

/-- The entry `p.Primes[len(p.Primes)-1]`. -/
def lastOf (primes : List Int) : Int := primes.getD (primes.length - 1) 0

/-- The value of `start`: 2 on an empty cache, else one past the last entry. -/
def startOf (primes : List Int) : Int :=
  if primes.length > 0 then lastOf primes + 1 else 2

/-- The loop that appends to the cache every base prime greater than its last
entry. -/
def mergeBase (basePrimes : List Int) (primes : List Int) : List Int :=
  basePrimes.foldl
    (fun ps bp => if ps.length = 0 ∨ lastOf ps < bp then ps ++ [bp] else ps) primes

/-- The loop `for j := startIdx; j <= high; j += bp { segment[j-low] = false }`,
entered at `j`. -/
def crossOff (low high bp : Int) : Nat → Int → List Bool → List Bool
  | 0, _, segment => segment
  | fuel + 1, j, segment =>
    if j ≤ high then crossOff low high bp fuel (j + bp) (segment.set (j - low).toNat false)
    else segment

/-- The value `startIdx := ((low + bp - 1) / bp) * bp`; the division of Go
truncates towards zero. -/
def startIdx (low bp : Int) : Int := ((low + bp - 1).tdiv bp) * bp

/-- The loop over the base primes that crosses their multiples off a window. -/
def crossBase (low high : Int) (basePrimes : List Int) (segment : List Bool) : List Bool :=
  basePrimes.foldl
    (fun seg bp => crossOff low high bp (high + 1 - startIdx low bp).toNat (startIdx low bp) seg)
    segment

/-- The loop `for i := low; i <= high; i++` that appends the survivors of a
window, entered at `i`. The flag tells whether the loop left through the
`return` taken once the cache holds more than `n` entries. -/
def appendLoop (n low high : Int) (segment : List Bool) :
    Nat → Int → List Int → Bool × List Int
  | 0, _, primes => (false, primes)
  | fuel + 1, i, primes =>
    if i ≤ high then
      if segment.getD (i - low).toNat false then
        if ((primes ++ [i]).length : Int) > n then (true, primes ++ [i])
        else appendLoop n low high segment fuel (i + 1) (primes ++ [i])
      else appendLoop n low high segment fuel (i + 1) primes
    else (false, primes)

/-- The bound `high` of the window that starts at `low`. -/
def highOf (maxPrime low : Int) : Int :=
  if low + segmentSize - 1 > maxPrime then maxPrime else low + segmentSize - 1

/-- The segmented sieve loop `for low := start; low <= maxPrime; low += segmentSize`,
entered at `low`. The flag tells whether a window left through the early
`return`. -/
def segmentLoop (n maxPrime : Int) (basePrimes : List Int) :
    Nat → Int → List Int → Bool × List Int
  | 0, _, primes => (false, primes)
  | fuel + 1, low, primes =>
    if low ≤ maxPrime then
      let high := highOf maxPrime low
      let segment := crossBase low high basePrimes
        (List.replicate (high - low + 1).toNat true)
      match appendLoop n low high segment (high - low + 1).toNat low primes with
      | (true, primes1) => (true, primes1)
      | (false, primes1) =>
        segmentLoop n maxPrime basePrimes fuel (low + segmentSize) primes1
    else (false, primes)

/-- The part of `NthPrime` that runs when the index is not cached: base sieve,
merge and segmented sieve, for the bound `maxPrime`. It returns the cache. -/
def sieveTo (maxPrime : Int) (primes : List Int) (n : Int) : List Int :=
  let start := startOf primes
  let sqrtMax : Int := (floorSqrt maxPrime.toNat : Int) + 1
  let basePrimes := generatePrimesUpTo sqrtMax
  let primes1 := mergeBase basePrimes primes
  (segmentLoop n maxPrime basePrimes (maxPrime + 1 - start).toNat start primes1).2

/-- The method `NthPrime` of the source on the cache `primes`: the returned value
(`none` when the read `p.Primes[int(n)]` is out of range) and the cache after
the call. -/
def NthPrime (maxPrimeOf : Int → Int) (primes : List Int) (n : Int) :
    Option Int × List Int :=
  if n < 0 then (some (-1), primes)
  else if n = 0 then (some 2, primes)
  else if n < (primes.length : Int) then (primes[n.toNat]?, primes)
  else
    let primes2 := sieveTo (maxPrimeOf n) primes n
    (primes2[n.toNat]?, primes2)

/-- The oracle states reachable from a fresh oracle (empty cache) by a finite
sequence of `NthPrime` calls, whether a call returns a value or ends in the
out-of-range read (the cache keeps what the call appended). -/
inductive Reachable (maxPrimeOf : Int → Int) : List Int → Prop
  | fresh : Reachable maxPrimeOf []
  | call (primes : List Int) (n : Int) :
      Reachable maxPrimeOf primes → Reachable maxPrimeOf (NthPrime maxPrimeOf primes n).2

/-- The cache holds the first primes in order: entry `i` is the `i`-th prime
(counted from 0, as `Nat.nth Nat.Prime`) for every valid `i`. -/
def IsFirstPrimes (primes : List Int) : Prop :=
  ∀ i : Nat, i < primes.length → primes[i]? = some (Nat.nth Nat.Prime i : Int)



/-! ## Definitions used in the statements -/

/-- The primes `p ≤ m` in increasing order. -/
def primesUpTo (m : Nat) : List Int :=
  ((List.range' 2 (m - 1)).filter (fun k => decide (Nat.Prime k))).map (fun k : Nat => (k : Int))

/-- The state of the flags when the outer loop of `generatePrimesUpTo` is at
`i`: a flag is still set exactly when no `d` with `2 ≤ d < i` has crossed the
index off, which happens at the multiples of `d` from `d * d` on. -/
def SieveInv (limit i : Nat) (isPrime : List Bool) : Prop :=
  isPrime.length = limit + 1 ∧
    ∀ k : Nat, isPrime.getD k false = true ↔
      (2 ≤ k ∧ k ≤ limit ∧ ∀ d : Nat, 2 ≤ d → d < i → d ∣ k → k < d * d)

/-- The bound `maxPrime` of the source for the index `n`, with the logarithms,
the product and the sums taken in exact real arithmetic:
`B = floor(nf * (ln nf + ln (ln nf)) + 1) + 10` for `nf = n + 1`. -/
def IsExactBound (n B : Int) : Prop :=
  B = ⌊((n + 1 : Int) : ℝ) *
      (Real.log ((n + 1 : Int) : ℝ) + Real.log (Real.log ((n + 1 : Int) : ℝ))) + 1⌋ + 10


/-! ## The same code with every slice access and every loop checked

The functions below follow the source like the ones above, and in addition
stop with a `Fault` when a slice is accessed outside its bounds, when a window
has a length outside `1 .. segmentSize`, or when a loop has used up its fuel
while its condition still holds. -/

/-- The places where a checked run can stop. -/
inductive Fault
  | fuel
  | isPrimeIndex
  | segmentIndex
  | windowSize
  | lastRead
  | cachedRead
  | earlyRead
  | fallbackRead
  deriving DecidableEq

/-- A write `a[idx] = b` that stops with `f` outside the slice. -/
def writeAt (f : Fault) (a : List Bool) (idx : Int) (b : Bool) : Except Fault (List Bool) :=
  if 0 ≤ idx ∧ idx < (a.length : Int) then .ok (a.set idx.toNat b) else .error f

/-- A read `a[idx]` that stops with `f` outside the slice. -/
def readAt (f : Fault) (a : List Bool) (idx : Int) : Except Fault Bool :=
  if 0 ≤ idx ∧ idx < (a.length : Int) then .ok (a.getD idx.toNat false) else .error f

/-- A read `p.Primes[idx]` that stops with `f` outside the slice. -/
def readPrime (f : Fault) (primes : List Int) (idx : Int) : Except Fault Int :=
  if 0 ≤ idx ∧ idx < (primes.length : Int) then .ok (primes.getD idx.toNat 0) else .error f

/-- Checked form of `initFlags`. -/
def initFlagsChecked (limit : Nat) : Except Fault (List Bool) :=
  (List.range' 2 (limit - 1)).foldlM
    (fun isPrime (i : Nat) => writeAt Fault.isPrimeIndex isPrime (i : Int) true)
    (List.replicate (limit + 1) false)

/-- Checked form of `markMultiples`. -/
def markMultiplesChecked (limit i : Nat) : Nat → Nat → List Bool → Except Fault (List Bool)
  | 0, j, isPrime => if j ≤ limit then .error Fault.fuel else .ok isPrime
  | fuel + 1, j, isPrime =>
    if j ≤ limit then
      match writeAt Fault.isPrimeIndex isPrime (j : Int) false with
      | .error e => .error e
      | .ok isPrime1 => markMultiplesChecked limit i fuel (j + i) isPrime1
    else .ok isPrime

/-- Checked form of `sieveLoop`. -/
def sieveLoopChecked (limit : Nat) : Nat → Nat → List Bool → Except Fault (List Bool)
  | 0, i, isPrime => if i * i ≤ limit then .error Fault.fuel else .ok isPrime
  | fuel + 1, i, isPrime =>
    if i * i ≤ limit then
      match readAt Fault.isPrimeIndex isPrime (i : Int) with
      | .error e => .error e
      | .ok true =>
        match markMultiplesChecked limit i (limit + 1) (i * i) isPrime with
        | .error e => .error e
        | .ok isPrime1 => sieveLoopChecked limit fuel (i + 1) isPrime1
      | .ok false => sieveLoopChecked limit fuel (i + 1) isPrime
    else .ok isPrime

/-- Checked form of `collectPrimes`. -/
def collectPrimesChecked (limit : Nat) (isPrime : List Bool) : Except Fault (List Int) :=
  (List.range' 2 (limit - 1)).foldlM
    (fun primes (i : Nat) =>
      match readAt Fault.isPrimeIndex isPrime (i : Int) with
      | .error e => .error e
      | .ok flag => .ok (if flag then primes ++ [(i : Int)] else primes))
    []

/-- Checked form of `generatePrimesUpTo`. -/
def generatePrimesUpToChecked (limit : Int) : Except Fault (List Int) :=
  if limit < 2 then .ok []
  else
    match initFlagsChecked limit.toNat with
    | .error e => .error e
    | .ok isPrime =>
      match sieveLoopChecked limit.toNat limit.toNat 2 isPrime with
      | .error e => .error e
      | .ok isPrime1 => collectPrimesChecked limit.toNat isPrime1

/-- Checked form of `startOf`. -/
def startOfChecked (primes : List Int) : Except Fault Int :=
  if primes.length > 0 then
    match readPrime Fault.lastRead primes ((primes.length : Int) - 1) with
    | .error e => .error e
    | .ok l => .ok (l + 1)
  else .ok 2

/-- Checked form of `mergeBase`. -/
def mergeBaseChecked (basePrimes : List Int) (primes : List Int) : Except Fault (List Int) :=
  basePrimes.foldlM
    (fun ps bp =>
      if ps.length = 0 then .ok (ps ++ [bp])
      else
        match readPrime Fault.lastRead ps ((ps.length : Int) - 1) with
        | .error e => .error e
        | .ok l => .ok (if l < bp then ps ++ [bp] else ps))
    primes

/-- Checked form of `crossOff`. -/
def crossOffChecked (low high bp : Int) : Nat → Int → List Bool → Except Fault (List Bool)
  | 0, j, segment => if j ≤ high then .error Fault.fuel else .ok segment
  | fuel + 1, j, segment =>
    if j ≤ high then
      match writeAt Fault.segmentIndex segment (j - low) false with
      | .error e => .error e
      | .ok segment1 => crossOffChecked low high bp fuel (j + bp) segment1
    else .ok segment

/-- Checked form of `crossBase`. -/
def crossBaseChecked (low high : Int) (basePrimes : List Int) (segment : List Bool) :
    Except Fault (List Bool) :=
  basePrimes.foldlM
    (fun seg bp =>
      crossOffChecked low high bp (high + 1 - startIdx low bp).toNat (startIdx low bp) seg)
    segment

/-- Checked form of `appendLoop`. -/
def appendLoopChecked (n low high : Int) (segment : List Bool) :
    Nat → Int → List Int → Except Fault (Bool × List Int)
  | 0, i, primes => if i ≤ high then .error Fault.fuel else .ok (false, primes)
  | fuel + 1, i, primes =>
    if i ≤ high then
      match readAt Fault.segmentIndex segment (i - low) with
      | .error e => .error e
      | .ok true =>
        if ((primes ++ [i]).length : Int) > n then .ok (true, primes ++ [i])
        else appendLoopChecked n low high segment fuel (i + 1) (primes ++ [i])
      | .ok false => appendLoopChecked n low high segment fuel (i + 1) primes
    else .ok (false, primes)

/-- Checked form of `segmentLoop`; the window must have between 1 and
`segmentSize` slots. -/
def segmentLoopChecked (n maxPrime : Int) (basePrimes : List Int) :
    Nat → Int → List Int → Except Fault (Bool × List Int)
  | 0, low, primes => if low ≤ maxPrime then .error Fault.fuel else .ok (false, primes)
  | fuel + 1, low, primes =>
    if low ≤ maxPrime then
      if 1 ≤ highOf maxPrime low - low + 1 ∧ highOf maxPrime low - low + 1 ≤ segmentSize then
        match crossBaseChecked low (highOf maxPrime low) basePrimes
            (List.replicate (highOf maxPrime low - low + 1).toNat true) with
        | .error e => .error e
        | .ok segment =>
          match appendLoopChecked n low (highOf maxPrime low) segment
              (highOf maxPrime low - low + 1).toNat low primes with
          | .error e => .error e
          | .ok (true, primes1) => .ok (true, primes1)
          | .ok (false, primes1) =>
            segmentLoopChecked n maxPrime basePrimes fuel (low + segmentSize) primes1
      else .error Fault.windowSize
    else .ok (false, primes)

/-- Checked form of `NthPrime`: the value and the cache when the call returns,
else the place where it stops. The read of `p.Primes[int(n)]` is an early read
when the segmented sieve left through its `return`, a fallback read after the
last window. -/
def NthPrimeChecked (maxPrimeOf : Int → Int) (primes : List Int) (n : Int) :
    Except Fault (Int × List Int) :=
  if n < 0 then .ok (-1, primes)
  else if n = 0 then .ok (2, primes)
  else if n < (primes.length : Int) then
    match readPrime Fault.cachedRead primes n with
    | .error e => .error e
    | .ok v => .ok (v, primes)
  else
    match startOfChecked primes with
    | .error e => .error e
    | .ok start =>
      match generatePrimesUpToChecked ((floorSqrt (maxPrimeOf n).toNat : Int) + 1) with
      | .error e => .error e
      | .ok basePrimes =>
        match mergeBaseChecked basePrimes primes with
        | .error e => .error e
        | .ok primes1 =>
          match segmentLoopChecked n (maxPrimeOf n) basePrimes
              (maxPrimeOf n + 1 - start).toNat start primes1 with
          | .error e => .error e
          | .ok (true, primes2) =>
            match readPrime Fault.earlyRead primes2 n with
            | .error e => .error e
            | .ok v => .ok (v, primes2)
          | .ok (false, primes2) =>
            match readPrime Fault.fallbackRead primes2 n with
            | .error e => .error e
            | .ok v => .ok (v, primes2)


/-! ## The segmented sieve for any window width

The same loop with the width of the windows as a parameter `width` in place of
the constant `segmentSize`, to compare the results of different cuts of the
range into windows. -/

/-- The bound `high` of the window of width `width` that starts at `low`. -/
def highOfWidth (width maxPrime low : Int) : Int :=
  if low + width - 1 > maxPrime then maxPrime else low + width - 1

/-- The segmented sieve loop with windows of width `width`. -/
def segmentLoopWidth (width n maxPrime : Int) (basePrimes : List Int) :
    Nat → Int → List Int → Bool × List Int
  | 0, _, primes => (false, primes)
  | fuel + 1, low, primes =>
    if low ≤ maxPrime then
      let high := highOfWidth width maxPrime low
      let segment := crossBase low high basePrimes
        (List.replicate (high - low + 1).toNat true)
      match appendLoop n low high segment (high - low + 1).toNat low primes with
      | (true, primes1) => (true, primes1)
      | (false, primes1) =>
        segmentLoopWidth width n maxPrime basePrimes fuel (low + width) primes1
    else (false, primes)

/-- The uncached path of `NthPrime` with windows of width `width`. -/
def sieveToWidth (width maxPrime : Int) (primes : List Int) (n : Int) : List Int :=
  let start := startOf primes
  let sqrtMax : Int := (floorSqrt maxPrime.toNat : Int) + 1
  let basePrimes := generatePrimesUpTo sqrtMax
  let primes1 := mergeBase basePrimes primes
  (segmentLoopWidth width n maxPrime basePrimes (maxPrime + 1 - start).toNat start primes1).2

/-! ## The cache only grows -/

theorem mergeBase_extends (basePrimes primes : List Int) :
    primes <+: mergeBase basePrimes primes := by
  unfold mergeBase
  induction basePrimes generalizing primes with
  | nil => exact List.prefix_refl _
  | cons bp rest ih =>
    rw [List.foldl_cons]
    split
    · exact (List.prefix_append primes [bp]).trans (ih _)
    · exact ih _

theorem appendLoop_extends (n low high : Int) (segment : List Bool) (fuel : Nat) (i : Int)
    (primes : List Int) :
    primes <+: (appendLoop n low high segment fuel i primes).2 := by
  induction fuel generalizing i primes with
  | zero => exact List.prefix_refl _
  | succ fuel ih =>
    rw [appendLoop]
    split
    · split
      · split
        · exact List.prefix_append primes [i]
        · exact (List.prefix_append primes [i]).trans (ih _ _)
      · exact ih _ _
    · exact List.prefix_refl _

theorem segmentLoop_extends (n maxPrime : Int) (basePrimes : List Int) (fuel : Nat) (low : Int)
    (primes : List Int) :
    primes <+: (segmentLoop n maxPrime basePrimes fuel low primes).2 := by
  induction fuel generalizing low primes with
  | zero => exact List.prefix_refl _
  | succ fuel ih =>
    rw [segmentLoop]
    split
    · have hp := appendLoop_extends n low (highOf maxPrime low)
        (crossBase low (highOf maxPrime low) basePrimes
          (List.replicate (highOf maxPrime low - low + 1).toNat true))
        (highOf maxPrime low - low + 1).toNat low primes
      simp only []
      split
      · next primes1 heq => rw [heq] at hp; exact hp
      · next primes1 heq => rw [heq] at hp; exact hp.trans (ih _ _)
    · exact List.prefix_refl _

theorem sieveTo_extends (maxPrime : Int) (primes : List Int) (n : Int) :
    primes <+: sieveTo maxPrime primes n := by
  unfold sieveTo
  exact (mergeBase_extends _ primes).trans (segmentLoop_extends _ _ _ _ _ _)

theorem NthPrime_snd_extends (maxPrimeOf : Int → Int) (primes : List Int) (n : Int) :
    primes <+: (NthPrime maxPrimeOf primes n).2 := by
  unfold NthPrime
  split
  · exact List.prefix_refl _
  · split
    · exact List.prefix_refl _
    · split
      · exact List.prefix_refl _
      · exact sieveTo_extends _ _ _


/-! ## The fuel of the loops

Each loop is given at least as many passes as it can take, so that a loop stops
only because its own condition fails: more fuel does not change the result. -/

theorem markMultiples_fuel (limit i : Nat) (hi : 0 < i) (fuel k j : Nat) (a : List Bool)
    (hfuel : limit + 1 ≤ fuel + j) :
    markMultiples limit i (fuel + k) j a = markMultiples limit i fuel j a := by
  induction fuel generalizing j a with
  | zero =>
    rcases k with _ | k
    · rfl
    · rw [Nat.zero_add, markMultiples, markMultiples, if_neg (by omega)]
  | succ fuel ih =>
    have : fuel + 1 + k = (fuel + k) + 1 := by omega
    rw [this, markMultiples, markMultiples]
    split
    · exact ih (j + i) _ (by omega)
    · rfl

theorem sieveLoop_fuel (limit fuel k i : Nat) (a : List Bool) (hfuel : limit + 2 ≤ fuel + i) :
    sieveLoop limit (fuel + k) i a = sieveLoop limit fuel i a := by
  induction fuel generalizing i a with
  | zero =>
    rcases k with _ | k
    · rfl
    · have : ¬ i * i ≤ limit := by nlinarith
      rw [Nat.zero_add, sieveLoop, sieveLoop, if_neg this]
  | succ fuel ih =>
    have : fuel + 1 + k = (fuel + k) + 1 := by omega
    rw [this, sieveLoop, sieveLoop]
    split
    · exact ih (i + 1) _ (by omega)
    · rfl

theorem crossOff_fuel (low high bp : Int) (hbp : 0 < bp) (fuel k : Nat) (j : Int)
    (seg : List Bool) (hfuel : high + 1 - j ≤ (fuel : Int)) :
    crossOff low high bp (fuel + k) j seg = crossOff low high bp fuel j seg := by
  induction fuel generalizing j seg with
  | zero =>
    rcases k with _ | k
    · rfl
    · rw [Nat.zero_add, crossOff, crossOff, if_neg (by push_cast at hfuel; omega)]
  | succ fuel ih =>
    have : fuel + 1 + k = (fuel + k) + 1 := by omega
    rw [this, crossOff, crossOff]
    split
    · exact ih (j + bp) _ (by push_cast at hfuel; omega)
    · rfl

theorem appendLoop_fuel (n low high : Int) (seg : List Bool) (fuel k : Nat) (i : Int)
    (ps : List Int) (hfuel : high + 1 - i ≤ (fuel : Int)) :
    appendLoop n low high seg (fuel + k) i ps = appendLoop n low high seg fuel i ps := by
  induction fuel generalizing i ps with
  | zero =>
    rcases k with _ | k
    · rfl
    · rw [Nat.zero_add, appendLoop, appendLoop, if_neg (by push_cast at hfuel; omega)]
  | succ fuel ih =>
    have : fuel + 1 + k = (fuel + k) + 1 := by omega
    rw [this, appendLoop, appendLoop]
    split
    · split
      · split
        · rfl
        · exact ih (i + 1) _ (by push_cast at hfuel; omega)
      · exact ih (i + 1) _ (by push_cast at hfuel; omega)
    · rfl

theorem segmentLoop_fuel (n maxPrime : Int) (basePrimes : List Int) (fuel k : Nat) (low : Int)
    (ps : List Int) (hfuel : maxPrime + 1 - low ≤ (fuel : Int)) :
    segmentLoop n maxPrime basePrimes (fuel + k) low ps =
      segmentLoop n maxPrime basePrimes fuel low ps := by
  induction fuel generalizing low ps with
  | zero =>
    rcases k with _ | k
    · rfl
    · rw [Nat.zero_add, segmentLoop, segmentLoop, if_neg (by push_cast at hfuel; omega)]
  | succ fuel ih =>
    have : fuel + 1 + k = (fuel + k) + 1 := by omega
    rw [this, segmentLoop, segmentLoop]
    split
    · simp only []
      split
      · rfl
      · exact ih (low + segmentSize) _ (by unfold segmentSize; push_cast at hfuel; omega)
    · rfl

/-! ## The base sieve -/

theorem getD_set_eq (a : List Bool) (i k : Nat) (b : Bool) :
    (a.set i b).getD k false = if i = k ∧ i < a.length then b else a.getD k false := by
  simp only [List.getD_eq_getElem?_getD, List.getElem?_set]
  by_cases h : i = k
  · subst h
    by_cases h2 : i < a.length
    · simp [h2]
    · simp [h2, List.getElem?_eq_none (Nat.le_of_not_lt h2)]
  · simp [h]

theorem foldl_set_true_length (l : List Nat) (a : List Bool) :
    (l.foldl (fun isPrime i => isPrime.set i true) a).length = a.length := by
  induction l generalizing a with
  | nil => rfl
  | cons x l ih => rw [List.foldl_cons, ih, List.length_set]

theorem foldl_set_true_getD (l : List Nat) (a : List Bool) (k : Nat) :
    (l.foldl (fun isPrime i => isPrime.set i true) a).getD k false = true ↔
      (a.getD k false = true ∨ (k ∈ l ∧ k < a.length)) := by
  induction l generalizing a with
  | nil => simp
  | cons x l ih =>
    rw [List.foldl_cons, ih, getD_set_eq, List.length_set, List.mem_cons]
    by_cases hx : x = k
    · subst hx
      by_cases hlen : x < a.length
      · simp [hlen]
      · simp [hlen]
    · have hx' : ¬ k = x := fun h => hx h.symm
      simp [hx, hx']

theorem initFlags_length (limit : Nat) : (initFlags limit).length = limit + 1 := by
  unfold initFlags
  rw [foldl_set_true_length, List.length_replicate]

theorem initFlags_getD (limit k : Nat) :
    (initFlags limit).getD k false = true ↔ (2 ≤ k ∧ k ≤ limit) := by
  unfold initFlags
  rw [foldl_set_true_getD, List.length_replicate, List.mem_range'_1]
  have hrep : (List.replicate (limit + 1) false).getD k false = false := by
    rw [List.getD_eq_getElem?_getD, List.getElem?_replicate]
    split <;> rfl
  rw [hrep]
  constructor
  · rintro (h | h)
    · exact absurd h (by simp)
    · omega
  · intro h
    right
    omega

theorem markMultiples_length (limit i fuel j : Nat) (a : List Bool) :
    (markMultiples limit i fuel j a).length = a.length := by
  induction fuel generalizing j a with
  | zero => rfl
  | succ fuel ih =>
    rw [markMultiples]
    split
    · rw [ih, List.length_set]
    · rfl

theorem stride_step (i j k : Nat) (hi : 0 < i) :
    (k ≠ j ∧ ¬ (j + i ≤ k ∧ i ∣ (k - (j + i)))) ↔ ¬ (j ≤ k ∧ i ∣ (k - j)) := by
  constructor
  · rintro ⟨hne, hstep⟩ ⟨hjk, c, hc⟩
    rcases c with _ | c
    · apply hne; simp at hc; omega
    · apply hstep
      have hk : k = j + i * (c + 1) := by omega
      have hk2 : k = j + i + i * c := by rw [hk]; ring
      refine ⟨by omega, c, by omega⟩
  · intro h
    refine ⟨fun hkj => h ⟨by omega, by simp [hkj]⟩, fun hstep => h ⟨by omega, ?_⟩⟩
    obtain ⟨hle, c, hc⟩ := hstep
    refine ⟨c + 1, ?_⟩
    have : k - j = k - (j + i) + i := by omega
    rw [this, hc]; ring

theorem markMultiples_getD (limit i : Nat) (hi : 0 < i) (fuel j : Nat) (a : List Bool)
    (hlen : a.length = limit + 1) (hfuel : limit + 1 ≤ fuel + j) (k : Nat) :
    (markMultiples limit i fuel j a).getD k false = true ↔
      (a.getD k false = true ∧ ¬ (j ≤ k ∧ k ≤ limit ∧ i ∣ (k - j))) := by
  induction fuel generalizing j a with
  | zero =>
    rw [markMultiples]
    constructor
    · intro h; exact ⟨h, fun hh => by omega⟩
    · exact fun h => h.1
  | succ fuel ih =>
    rw [markMultiples]
    split
    · next hj =>
      rw [ih (j + i) (a.set j false) (by rw [List.length_set, hlen]) (by omega), getD_set_eq]
      have hjlen : j < a.length := by omega
      have hs := stride_step i j k hi
      by_cases hkj : j = k
      · subst hkj
        simp [hjlen, hj]
      · have hkj' : k ≠ j := fun h => hkj h.symm
        simp only [hkj, false_and, if_false]
        by_cases hkl : k ≤ limit
        · have h1 : (j + i ≤ k ∧ k ≤ limit ∧ i ∣ k - (j + i)) ↔ (j + i ≤ k ∧ i ∣ k - (j + i)) := by
            tauto
          have h2 : (j ≤ k ∧ k ≤ limit ∧ i ∣ k - j) ↔ (j ≤ k ∧ i ∣ k - j) := by tauto
          rw [h1, h2, ← hs]
          tauto
        · have h1 : ¬ (j + i ≤ k ∧ k ≤ limit ∧ i ∣ k - (j + i)) := fun h => hkl h.2.1
          have h2 : ¬ (j ≤ k ∧ k ≤ limit ∧ i ∣ k - j) := fun h => hkl h.2.1
          simp [h1, h2]
    · next hj =>
      constructor
      · intro h; exact ⟨h, fun hh => by omega⟩
      · exact fun h => h.1

theorem initFlags_inv (limit : Nat) : SieveInv limit 2 (initFlags limit) := by
  refine ⟨initFlags_length limit, fun k => ?_⟩
  rw [initFlags_getD]
  constructor
  · rintro ⟨h1, h2⟩
    exact ⟨h1, h2, fun d hd hd2 => by omega⟩
  · rintro ⟨h1, h2, -⟩
    exact ⟨h1, h2⟩

theorem sieveInv_step (limit i : Nat) (a : List Bool) (h2 : 2 ≤ i) (hinv : SieveInv limit i a) :
    SieveInv limit (i + 1)
      (if a.getD i false then markMultiples limit i (limit + 1) (i * i) a else a) := by
  obtain ⟨hlen, hflag⟩ := hinv
  by_cases hi : a.getD i false = true
  · rw [if_pos hi]
    refine ⟨by rw [markMultiples_length, hlen], fun k => ?_⟩
    rw [markMultiples_getD limit i (by omega) (limit + 1) (i * i) a hlen (by omega), hflag]
    constructor
    · rintro ⟨⟨hk2, hkl, hd⟩, hno⟩
      refine ⟨hk2, hkl, fun d hd2 hdi hdk => ?_⟩
      rcases Nat.lt_or_ge d i with hlt | hge
      · exact hd d hd2 hlt hdk
      · have hdi' : d = i := by omega
        subst hdi'
        by_contra hge2
        apply hno
        refine ⟨by omega, hkl, ?_⟩
        exact (Nat.dvd_sub' hdk (Dvd.intro d rfl))
    · rintro ⟨hk2, hkl, hd⟩
      refine ⟨⟨hk2, hkl, fun d hd2 hdi hdk => hd d hd2 (by omega) hdk⟩, ?_⟩
      rintro ⟨hsq, -, hdvd⟩
      have hik : i ∣ k := by
        have := Nat.dvd_add hdvd (Dvd.intro i rfl)
        rwa [Nat.sub_add_cancel hsq] at this
      have := hd i h2 (by omega) hik
      omega
  · rw [if_neg hi]
    refine ⟨hlen, fun k => ?_⟩
    rw [hflag]
    constructor
    · rintro ⟨hk2, hkl, hd⟩
      refine ⟨hk2, hkl, fun d hd2 hdi hdk => ?_⟩
      rcases Nat.lt_or_ge d i with hlt | hge
      · exact hd d hd2 hlt hdk
      · have hdi' : d = i := by omega
        subst hdi'
        by_contra hge2
        have hdle : d ≤ limit := by nlinarith
        apply hi
        rw [hflag]
        refine ⟨h2, hdle, fun e he2 hed hedvd => ?_⟩
        by_contra hcon
        have := hd e he2 hed (hedvd.trans hdk)
        nlinarith
    · rintro ⟨hk2, hkl, hd⟩
      exact ⟨hk2, hkl, fun d hd2 hdi hdk => hd d hd2 (by omega) hdk⟩

theorem sieveLoop_inv (limit fuel i : Nat) (a : List Bool) (h2 : 2 ≤ i)
    (hinv : SieveInv limit i a) (hfuel : limit + 2 ≤ fuel + i) :
    ∃ i1, limit < i1 * i1 ∧ SieveInv limit i1 (sieveLoop limit fuel i a) := by
  induction fuel generalizing i a with
  | zero =>
    rw [sieveLoop]
    exact ⟨i, by nlinarith, hinv⟩
  | succ fuel ih =>
    rw [sieveLoop]
    split
    · exact ih (i + 1) _ (by omega) (sieveInv_step limit i a h2 hinv) (by omega)
    · next hsq => exact ⟨i, by omega, hinv⟩

theorem sieveInv_prime (limit i : Nat) (a : List Bool) (hsq : limit < i * i)
    (hinv : SieveInv limit i a) (k : Nat) :
    a.getD k false = true ↔ (2 ≤ k ∧ k ≤ limit ∧ Nat.Prime k) := by
  rw [hinv.2]
  constructor
  · rintro ⟨hk2, hkl, hd⟩
    refine ⟨hk2, hkl, ?_⟩
    by_contra hnp
    have hmin := Nat.minFac_sq_le_self (by omega : 0 < k) hnp
    have hmp : 2 ≤ k.minFac := (Nat.minFac_prime (by omega)).two_le
    have hlt : k.minFac < i := by
      by_contra hge
      have hge' : i ≤ k.minFac := by omega
      have : i * i ≤ k.minFac ^ 2 := by rw [sq]; exact Nat.mul_le_mul hge' hge'
      omega
    have := hd k.minFac hmp hlt (Nat.minFac_dvd k)
    rw [sq] at hmin
    omega
  · rintro ⟨hk2, hkl, hp⟩
    refine ⟨hk2, hkl, fun d hd2 _ hdk => ?_⟩
    rcases hp.eq_one_or_self_of_dvd d hdk with h1 | h1
    · omega
    · subst h1; nlinarith

theorem foldl_append_if (p : Nat → Bool) (l : List Nat) (acc : List Int) :
    l.foldl (fun primes i => if p i then primes ++ [(i : Int)] else primes) acc =
      acc ++ (l.filter p).map (fun k : Nat => (k : Int)) := by
  induction l generalizing acc with
  | nil => simp
  | cons x l ih =>
    rw [List.foldl_cons, ih]
    by_cases hx : p x = true
    · simp [hx]
    · simp [hx]

theorem generatePrimesUpTo_eq (limit : Int) :
    generatePrimesUpTo limit = primesUpTo limit.toNat := by
  unfold generatePrimesUpTo primesUpTo
  split
  · next hlt =>
    have : limit.toNat - 1 = 0 := by omega
    rw [this]; rfl
  · obtain ⟨i1, hsq, hinv⟩ := sieveLoop_inv limit.toNat limit.toNat 2 (initFlags limit.toNat)
      (le_refl 2) (initFlags_inv _) (by omega)
    unfold collectPrimes
    rw [foldl_append_if, List.nil_append]
    refine congrArg (List.map fun k : Nat => (k : Int)) ?_
    apply List.filter_congr
    intro k hk
    rw [List.mem_range'_1] at hk
    have := sieveInv_prime limit.toNat i1 _ hsq hinv k
    by_cases hp : Nat.Prime k
    · rw [this.2 ⟨hk.1, by omega, hp⟩]; simp [hp]
    · have hf : ¬ ((sieveLoop limit.toNat limit.toNat 2 (initFlags limit.toNat)).getD k false
          = true) := fun h => hp (this.1 h).2.2
      rw [Bool.not_eq_true] at hf
      rw [hf]; simp [hp]

/-! ## The list of the primes up to a bound -/

theorem primesUpTo_succ (m : Nat) :
    primesUpTo (m + 1) =
      primesUpTo m ++ (if Nat.Prime (m + 1) then [((m + 1 : Nat) : Int)] else []) := by
  unfold primesUpTo
  rcases m with _ | m
  · have h1 : ¬ Nat.Prime (0 + 1) := by norm_num
    simp [h1]
  · have hr : List.range' 2 (m + 1 + 1 - 1) = List.range' 2 (m + 1 - 1) ++ [m + 1 + 1] := by
      have : m + 1 + 1 - 1 = (m + 1 - 1) + 1 := by omega
      rw [this, List.range'_concat]
      congr 2
      omega
    rw [hr, List.filter_append, List.map_append]
    by_cases hp : Nat.Prime (m + 1 + 1)
    · simp [hp, List.filter_cons]
    · simp [hp, List.filter_cons]

theorem primesUpTo_zero : primesUpTo 0 = [] := rfl

theorem primesUpTo_one : primesUpTo 1 = [] := rfl

theorem mem_primesUpTo (m : Nat) (p : Int) :
    p ∈ primesUpTo m ↔ (2 ≤ p ∧ p ≤ (m : Int) ∧ Nat.Prime p.toNat) := by
  unfold primesUpTo
  simp only [List.mem_map, List.mem_filter, List.mem_range'_1, decide_eq_true_eq]
  constructor
  · rintro ⟨k, ⟨⟨hk2, hkm⟩, hp⟩, rfl⟩
    refine ⟨by omega, by omega, by simpa using hp⟩
  · rintro ⟨h2, hm, hp⟩
    refine ⟨p.toNat, ⟨⟨by omega, by omega⟩, hp⟩, by omega⟩

theorem primesUpTo_pairwise (m : Nat) :
    (primesUpTo m).Pairwise (fun a b => a < b) := by
  unfold primesUpTo
  have h := List.Pairwise.filter (fun k => decide (Nat.Prime k))
    (List.pairwise_lt_range' 2 (m - 1))
  exact List.Pairwise.map (fun k : Nat => (k : Int)) (fun a b hab => Int.ofNat_lt.2 hab) h

theorem primesUpTo_eq_map_nth (m : Nat) :
    primesUpTo m =
      (List.range (Nat.count Nat.Prime (m + 1))).map (fun i => (Nat.nth Nat.Prime i : Int)) := by
  induction m with
  | zero => rw [primesUpTo_zero]; simp [Nat.count_succ, Nat.not_prime_zero]
  | succ m ih =>
    rw [primesUpTo_succ, ih, Nat.count_succ Nat.Prime (m + 1)]
    by_cases hp : Nat.Prime (m + 1)
    · rw [if_pos hp, if_pos hp, List.range_succ, List.map_append, List.map_singleton,
        Nat.nth_count hp]
    · rw [if_neg hp, if_neg hp, List.append_nil]
      rfl

theorem primesUpTo_length (m : Nat) :
    (primesUpTo m).length = Nat.count Nat.Prime (m + 1) := by
  rw [primesUpTo_eq_map_nth, List.length_map, List.length_range]

theorem primesUpTo_isFirstPrimes (m : Nat) : IsFirstPrimes (primesUpTo m) := by
  intro i hi
  rw [primesUpTo_length] at hi
  rw [primesUpTo_eq_map_nth, List.getElem?_map, List.getElem?_range hi]
  rfl

theorem count_prime_nth_succ (k : Nat) :
    Nat.count Nat.Prime (Nat.nth Nat.Prime k + 1) = k + 1 := by
  rw [Nat.count_succ, if_pos (Nat.nth_mem_of_infinite Nat.infinite_setOf_prime k),
    Nat.count_nth (fun hf => absurd hf Nat.infinite_setOf_prime)]

theorem isFirstPrimes_eq_primesUpTo (primes : List Int) (h : IsFirstPrimes primes) :
    ∃ m, primes = primesUpTo m := by
  rcases Nat.eq_zero_or_pos primes.length with h0 | hpos
  · exact ⟨0, by rw [primesUpTo_zero]; exact List.length_eq_zero.1 h0⟩
  · refine ⟨Nat.nth Nat.Prime (primes.length - 1), ?_⟩
    have hlen : (primesUpTo (Nat.nth Nat.Prime (primes.length - 1))).length = primes.length := by
      rw [primesUpTo_length, count_prime_nth_succ]; omega
    apply List.ext_getElem? 
    intro i
    rcases Nat.lt_or_ge i primes.length with hi | hi
    · rw [h i hi, primesUpTo_isFirstPrimes _ i (by omega)]
    · rw [List.getElem?_eq_none hi, List.getElem?_eq_none (by omega)]

theorem lastOf_append_singleton (l : List Int) (x : Int) : lastOf (l ++ [x]) = x := by
  unfold lastOf
  simp [List.getD_eq_getElem?_getD]

/-- A cache that lists the primes up to some bound lists the primes below its
own `start`, which is at least 2. -/
theorem primesUpTo_frontier (m : Nat) :
    ∃ a : Nat, 1 ≤ a ∧ a ≤ max m 1 ∧ startOf (primesUpTo m) = (a : Int) + 1 ∧
      primesUpTo m = primesUpTo a := by
  induction m with
  | zero => exact ⟨1, le_refl 1, by simp, by rw [primesUpTo_zero]; rfl, rfl⟩
  | succ m ih =>
    by_cases hp : Nat.Prime (m + 1)
    · refine ⟨m + 1, by omega, by simp, ?_, rfl⟩
      rw [primesUpTo_succ, if_pos hp]
      unfold startOf
      rw [if_pos (by simp), lastOf_append_singleton]
    · obtain ⟨a, h1, h2, h3, h4⟩ := ih
      have heq : primesUpTo (m + 1) = primesUpTo m := by
        rw [primesUpTo_succ, if_neg hp, List.append_nil]
      rw [heq]
      exact ⟨a, h1, by omega, h3, h4⟩

theorem primesUpTo_mono_eq (a b : Nat) (hab : a ≤ b)
    (hnone : ∀ q : Nat, a < q → q ≤ b → ¬ Nat.Prime q) : primesUpTo b = primesUpTo a := by
  induction b with
  | zero =>
    have : a = 0 := by omega
    rw [this]
  | succ b ih =>
    rcases Nat.lt_or_ge a (b + 1) with hlt | hge
    · rw [primesUpTo_succ, if_neg (hnone (b + 1) hlt (le_refl _)), List.append_nil]
      exact ih (by omega) (fun q hq hqb => hnone q hq (by omega))
    · have : a = b + 1 := by omega
      rw [this]

/-! ## The merge of the base primes into the cache -/

theorem lastOf_primesUpTo (m : Nat) (hne : 0 < (primesUpTo m).length) :
    ∃ a : Nat, 1 ≤ a ∧ a ≤ max m 1 ∧ lastOf (primesUpTo m) = (a : Int) ∧
      primesUpTo m = primesUpTo a := by
  obtain ⟨a, h1, h2, h3, h4⟩ := primesUpTo_frontier m
  refine ⟨a, h1, h2, ?_, h4⟩
  unfold startOf at h3
  rw [if_pos hne] at h3
  omega

theorem mergeBase_primesUpTo (s a : Nat) :
    mergeBase (primesUpTo s) (primesUpTo a) = primesUpTo (max a s) := by
  induction s with
  | zero => simp [mergeBase, primesUpTo_zero]
  | succ s ih =>
    unfold mergeBase at ih ⊢
    rw [primesUpTo_succ, List.foldl_append, ih]
    by_cases hp : Nat.Prime (s + 1)
    · rw [if_pos hp, List.foldl_cons, List.foldl_nil]
      rcases Nat.lt_or_ge s a with hlt | hge
      · have hmax1 : max a s = a := by omega
        have hmax2 : max a (s + 1) = a := by omega
        rw [hmax1, hmax2]
        have hmem : ((s + 1 : Nat) : Int) ∈ primesUpTo a :=
          (mem_primesUpTo a ((s + 1 : Nat) : Int)).2
            ⟨by have := hp.two_le; omega, by omega, by simpa using hp⟩
        have hne : 0 < (primesUpTo a).length := List.length_pos_of_mem hmem
        obtain ⟨b, -, -, hlast, heq⟩ := lastOf_primesUpTo a hne
        rw [heq] at hmem
        have hle := ((mem_primesUpTo b _).1 hmem).2.1
        rw [if_neg]
        rintro (h | h)
        · omega
        · rw [hlast] at h; omega
      · have hmax1 : max a s = s := by omega
        have hmax2 : max a (s + 1) = s + 1 := by omega
        rw [hmax1, hmax2, primesUpTo_succ s, if_pos hp, if_pos]
        rcases Nat.eq_zero_or_pos (primesUpTo s).length with h0 | hpos
        · exact Or.inl h0
        · right
          obtain ⟨b, -, hb, hlast, -⟩ := lastOf_primesUpTo s hpos
          have hs : s ≠ 0 := by
            rintro rfl
            rw [primesUpTo_zero] at hpos
            simp at hpos
          rw [hlast]
          have : b ≤ s := by omega
          omega
    · rw [if_neg hp, List.foldl_nil]
      rcases Nat.lt_or_ge s a with hlt | hge
      · have hmax1 : max a s = a := by omega
        have hmax2 : max a (s + 1) = a := by omega
        rw [hmax1, hmax2]
      · have hmax1 : max a s = s := by omega
        have hmax2 : max a (s + 1) = s + 1 := by omega
        rw [hmax1, hmax2, primesUpTo_succ s, if_neg hp, List.append_nil]

/-! ## Crossing the multiples of the base primes off a window -/

theorem crossOff_length (low high bp : Int) (fuel : Nat) (j : Int) (seg : List Bool) :
    (crossOff low high bp fuel j seg).length = seg.length := by
  induction fuel generalizing j seg with
  | zero => rfl
  | succ fuel ih =>
    rw [crossOff]
    split
    · rw [ih, List.length_set]
    · rfl

theorem stride_step_int (bp j x : Int) (hbp : 0 < bp) :
    (x ≠ j ∧ ¬ (j + bp ≤ x ∧ bp ∣ x - (j + bp))) ↔ ¬ (j ≤ x ∧ bp ∣ x - j) := by
  constructor
  · rintro ⟨hne, hstep⟩ ⟨hjx, c, hc⟩
    have hc0 : 0 ≤ c := by
      by_contra hneg
      have : bp * c ≤ bp * (-1) := Int.mul_le_mul_of_nonneg_left (by omega) (le_of_lt hbp)
      omega
    have hc1 : c ≠ 0 := by
      rintro rfl
      apply hne; rw [mul_zero] at hc; omega
    apply hstep
    have hge : bp * 1 ≤ bp * c := Int.mul_le_mul_of_nonneg_left (by omega) (le_of_lt hbp)
    refine ⟨by omega, c - 1, ?_⟩
    rw [mul_sub, mul_one, ← hc]; ring
  · intro h
    refine ⟨fun hxj => h ⟨by omega, by simp [hxj]⟩, fun hstep => h ⟨by omega, ?_⟩⟩
    obtain ⟨-, c, hc⟩ := hstep
    refine ⟨c + 1, ?_⟩
    rw [mul_add, mul_one, ← hc]; ring

theorem getD_true_lt (seg : List Bool) (t : Nat) (h : seg.getD t false = true) :
    t < seg.length := by
  by_contra hge
  rw [List.getD_eq_getElem?_getD, List.getElem?_eq_none (by omega)] at h
  exact absurd h (by simp)

theorem crossOff_getD (low high bp : Int) (hbp : 0 < bp) (fuel : Nat) (j : Int)
    (seg : List Bool) (hlow : low ≤ j) (hlen : (seg.length : Int) ≤ high - low + 1)
    (hfuel : high + 1 - j ≤ (fuel : Int)) (t : Nat) :
    (crossOff low high bp fuel j seg).getD t false = true ↔
      (seg.getD t false = true ∧ ¬ (j ≤ low + t ∧ bp ∣ (low + t - j))) := by
  induction fuel generalizing j seg with
  | zero =>
    rw [crossOff]
    constructor
    · intro h
      have := getD_true_lt seg t h
      exact ⟨h, fun hh => by omega⟩
    · exact fun h => h.1
  | succ fuel ih =>
    rw [crossOff]
    split
    · next hj =>
      rw [ih (j + bp) (seg.set (j - low).toNat false) (by omega)
        (by rw [List.length_set]; exact hlen) (by push_cast at hfuel ⊢; omega), getD_set_eq,
        ← stride_step_int bp j (low + t) hbp]
      by_cases hidx : (j - low).toNat = t
      · have hxj : low + (t : Int) = j := by omega
        by_cases hlt : (j - low).toNat < seg.length
        · rw [if_pos ⟨hidx, hlt⟩]
          constructor
          · intro h; exact absurd h.1 (by simp)
          · intro h; exact absurd hxj h.2.1
        · have hf : ¬ (seg.getD t false = true) := fun h => by
            have := getD_true_lt seg t h
            omega
          rw [if_neg (fun h => hlt h.2)]
          constructor
          · intro h; exact absurd h.1 hf
          · intro h; exact absurd h.1 hf
      · have hxj : low + (t : Int) ≠ j := by omega
        simp only [hidx, false_and, if_false]
        tauto
    · next hj =>
      constructor
      · intro h
        have := getD_true_lt seg t h
        exact ⟨h, fun hh => by omega⟩
      · exact fun h => h.1

theorem startIdx_spec (low bp : Int) (hlow : 1 ≤ low) (hbp : 0 < bp) :
    bp ∣ startIdx low bp ∧ low ≤ startIdx low bp ∧ startIdx low bp < low + bp := by
  unfold startIdx
  rw [Int.tdiv_eq_ediv (by omega) (le_of_lt hbp)]
  have h1 := Int.emod_add_ediv (low + bp - 1) bp
  have h2 := Int.emod_nonneg (low + bp - 1) (ne_of_gt hbp)
  have h3 := Int.emod_lt_of_pos (low + bp - 1) hbp
  have h4 : (low + bp - 1) / bp * bp = bp * ((low + bp - 1) / bp) := mul_comm _ _
  refine ⟨⟨(low + bp - 1) / bp, h4⟩, by omega, by omega⟩

theorem dvd_from_startIdx (low bp x : Int) (hlow : 1 ≤ low) (hbp : 0 < bp) (hx : low ≤ x) :
    (startIdx low bp ≤ x ∧ bp ∣ x - startIdx low bp) ↔ bp ∣ x := by
  obtain ⟨hdvd, hle, hlt⟩ := startIdx_spec low bp hlow hbp
  constructor
  · rintro ⟨-, h⟩
    have := dvd_add h hdvd
    rwa [sub_add_cancel] at this
  · intro h
    have hsub : bp ∣ x - startIdx low bp := dvd_sub h hdvd
    refine ⟨?_, hsub⟩
    obtain ⟨c, hc⟩ := hsub
    by_contra hneg
    have hc1 : c ≤ -1 := by
      by_contra hc0
      have : 0 ≤ bp * c := mul_nonneg (le_of_lt hbp) (by omega)
      omega
    have : bp * c ≤ bp * (-1) := Int.mul_le_mul_of_nonneg_left hc1 (le_of_lt hbp)
    omega

theorem crossBase_length (low high : Int) (basePrimes : List Int) (seg : List Bool) :
    (crossBase low high basePrimes seg).length = seg.length := by
  unfold crossBase
  induction basePrimes generalizing seg with
  | nil => rfl
  | cons bp rest ih => rw [List.foldl_cons, ih, crossOff_length]

theorem crossBase_getD (low high : Int) (hlow : 1 ≤ low) (basePrimes : List Int)
    (hbase : ∀ bp ∈ basePrimes, 0 < bp) (seg : List Bool)
    (hlen : (seg.length : Int) ≤ high - low + 1) (t : Nat) :
    (crossBase low high basePrimes seg).getD t false = true ↔
      (seg.getD t false = true ∧ ∀ bp ∈ basePrimes, ¬ bp ∣ (low + (t : Int))) := by
  unfold crossBase
  induction basePrimes generalizing seg with
  | nil => simp
  | cons bp rest ih =>
    have hbp : 0 < bp := hbase bp (List.mem_cons_self _ _)
    rw [List.foldl_cons, ih (fun b hb => hbase b (List.mem_cons_of_mem _ hb)) _
      (by rw [crossOff_length]; exact hlen),
      crossOff_getD low high bp hbp _ _ seg (startIdx_spec low bp hlow hbp).2.1 hlen
        (by have := Int.self_le_toNat (high + 1 - startIdx low bp); omega),
      dvd_from_startIdx low bp (low + t) hlow hbp (by omega)]
    simp only [List.mem_cons, forall_eq_or_imp]
    tauto

theorem no_base_divisor_iff (s : Nat) (x : Int) (h2 : 2 ≤ x) (hsq : x < (s : Int) * s) :
    (∀ bp ∈ primesUpTo s, ¬ bp ∣ x) ↔ (Nat.Prime x.toNat ∧ (s : Int) < x) := by
  lift x to ℕ using (by omega) with k
  have hk2 : 2 ≤ k := by omega
  have hsq' : k < s * s := by exact_mod_cast hsq
  rw [Int.toNat_ofNat]
  constructor
  · intro h
    have hmp : Nat.Prime k.minFac := Nat.minFac_prime (by omega)
    have hms : s < k.minFac := by
      by_contra hle
      apply h (k.minFac : Int)
      · exact (mem_primesUpTo s _).2
          ⟨by have := hmp.two_le; omega, by omega, by simpa using hmp⟩
      · exact Int.natCast_dvd_natCast.2 (Nat.minFac_dvd k)
    have hp : Nat.Prime k := by
      by_contra hnp
      have hle := Nat.minFac_sq_le_self (by omega : 0 < k) hnp
      have : s * s < k.minFac ^ 2 := by rw [sq]; exact Nat.mul_lt_mul'' hms hms
      omega
    refine ⟨hp, ?_⟩
    rw [(Nat.prime_def_minFac.1 hp).2] at hms
    exact_mod_cast hms
  · rintro ⟨hp, hs⟩ bp hbp hdvd
    obtain ⟨hb2, hbs, -⟩ := (mem_primesUpTo s bp).1 hbp
    lift bp to ℕ using (by omega) with b
    have hdvd' : b ∣ k := Int.natCast_dvd_natCast.1 hdvd
    rcases hp.eq_one_or_self_of_dvd b hdvd' with h1 | h1
    · omega
    · omega

theorem window_survivor (low high : Int) (s : Nat) (hlow : 2 ≤ low)
    (hsq : high < (s : Int) * s) (x : Int) (hx1 : low ≤ x) (hx2 : x ≤ high) :
    (crossBase low high (primesUpTo s)
        (List.replicate (high - low + 1).toNat true)).getD (x - low).toNat false = true ↔
      (Nat.Prime x.toNat ∧ (s : Int) < x) := by
  rw [crossBase_getD low high (by omega) (primesUpTo s)
    (fun bp hbp => by have := ((mem_primesUpTo s bp).1 hbp).1; omega) _
    (by rw [List.length_replicate]; omega)]
  have hx : low + (((x - low).toNat : Nat) : Int) = x := by omega
  rw [hx, no_base_divisor_iff s x (by omega) (by omega)]
  have hrep : (List.replicate (high - low + 1).toNat true).getD (x - low).toNat false = true := by
    rw [List.getD_eq_getElem?_getD, List.getElem?_replicate, if_pos (by omega)]
    rfl
  rw [hrep]
  simp

/-! ## The append loop and the segmented sieve loop -/

theorem primesUpTo_append_prime (c : Nat) (x : Int) (hp : Nat.Prime x.toNat) (hc : (c : Int) < x) :
    primesUpTo (max (c : Int) (x - 1)).toNat ++ [x] = primesUpTo (max (c : Int) x).toNat := by
  have h1 : (max (c : Int) (x - 1)).toNat = x.toNat - 1 := by
    rw [max_eq_right (by omega)]; omega
  have h2 : (max (c : Int) x).toNat = (x.toNat - 1) + 1 := by
    rw [max_eq_right (by omega)]; omega
  have h3 : x.toNat - 1 + 1 = x.toNat := by omega
  rw [h1, h2, primesUpTo_succ, h3, if_pos hp]
  congr 2
  omega

theorem primesUpTo_skip (c : Nat) (x : Int) (h : ¬ (Nat.Prime x.toNat ∧ (c : Int) < x)) :
    primesUpTo (max (c : Int) (x - 1)).toNat = primesUpTo (max (c : Int) x).toNat := by
  rcases le_or_lt x (c : Int) with hle | hlt
  · rw [max_eq_left (by omega), max_eq_left hle]
  · have hnp : ¬ Nat.Prime x.toNat := fun hp => h ⟨hp, hlt⟩
    have h1 : (max (c : Int) (x - 1)).toNat = x.toNat - 1 := by
      rw [max_eq_right (by omega)]; omega
    have h2 : (max (c : Int) x).toNat = (x.toNat - 1) + 1 := by
      rw [max_eq_right (by omega)]; omega
    have h3 : x.toNat - 1 + 1 = x.toNat := by omega
    rw [h1, h2, primesUpTo_succ, h3, if_neg hnp, List.append_nil]

theorem appendLoop_primes (n low high : Int) (seg : List Bool) (c : Nat)
    (hsurv : ∀ x : Int, low ≤ x → x ≤ high →
      (seg.getD (x - low).toNat false = true ↔ (Nat.Prime x.toNat ∧ (c : Int) < x)))
    (fuel : Nat) (i : Int) (ps : List Int) (hi : low ≤ i) (hi2 : i ≤ high + 1)
    (hps : ps = primesUpTo (max (c : Int) (i - 1)).toNat) (hfuel : high + 1 - i ≤ (fuel : Int)) :
    (∃ m, (appendLoop n low high seg fuel i ps).2 = primesUpTo m) ∧
      ((appendLoop n low high seg fuel i ps).1 = true →
        n < ((appendLoop n low high seg fuel i ps).2.length : Int)) ∧
      ((appendLoop n low high seg fuel i ps).1 = false →
        (appendLoop n low high seg fuel i ps).2 = primesUpTo (max (c : Int) high).toNat) := by
  induction fuel generalizing i ps with
  | zero =>
    rw [appendLoop]
    have : i - 1 = high := by push_cast at hfuel; omega
    rw [this] at hps
    exact ⟨⟨_, hps⟩, fun h => absurd h (by simp), fun _ => hps⟩
  | succ fuel ih =>
    rw [appendLoop]
    split
    · next hih =>
      split
      · next hflag =>
        have hs := (hsurv i hi hih).1 hflag
        have hps1 : ps ++ [i] = primesUpTo (max (c : Int) (i + 1 - 1)).toNat := by
          rw [hps, primesUpTo_append_prime c i hs.1 hs.2]
          congr 2
          omega
        split
        · next hlen =>
          exact ⟨⟨_, hps1⟩, fun _ => hlen, fun h => absurd h (by simp)⟩
        · exact ih (i + 1) (ps ++ [i]) (by omega) (by omega) hps1 (by push_cast at hfuel; omega)
      · next hflag =>
        have hs : ¬ (Nat.Prime i.toNat ∧ (c : Int) < i) := fun h => hflag ((hsurv i hi hih).2 h)
        have hps1 : ps = primesUpTo (max (c : Int) (i + 1 - 1)).toNat := by
          rw [hps, primesUpTo_skip c i hs]
          congr 2
          omega
        exact ih (i + 1) ps (by omega) (by omega) hps1 (by push_cast at hfuel; omega)
    · next hih =>
      have : i - 1 = high := by omega
      rw [this] at hps
      exact ⟨⟨_, hps⟩, fun h => absurd h (by simp), fun _ => hps⟩

theorem highOf_eq (maxPrime low : Int) :
    highOf maxPrime low = min (low + segmentSize - 1) maxPrime := by
  unfold highOf
  split
  · next h => rw [min_eq_right (le_of_lt h)]
  · next h => rw [min_eq_left (by omega)]

theorem segmentLoop_primes (n maxPrime : Int) (s c : Nat) (hs : s ≤ c)
    (hsq : maxPrime < (s : Int) * s) (fuel : Nat) (low : Int) (ps : List Int) (hlow : 2 ≤ low)
    (hc : c ≤ s ∨ (c : Int) < low)
    (hps : ps = primesUpTo (max (c : Int) (min (low - 1) maxPrime)).toNat)
    (hfuel : maxPrime + 1 - low ≤ (fuel : Int)) :
    (∃ m, (segmentLoop n maxPrime (primesUpTo s) fuel low ps).2 = primesUpTo m) ∧
      ((segmentLoop n maxPrime (primesUpTo s) fuel low ps).1 = true →
        n < ((segmentLoop n maxPrime (primesUpTo s) fuel low ps).2.length : Int)) ∧
      ((segmentLoop n maxPrime (primesUpTo s) fuel low ps).1 = false →
        (segmentLoop n maxPrime (primesUpTo s) fuel low ps).2 =
          primesUpTo (max (c : Int) maxPrime).toNat) := by
  have hseg : (0 : Int) < segmentSize := by unfold segmentSize; omega
  induction fuel generalizing low ps with
  | zero =>
    rw [segmentLoop]
    have : min (low - 1) maxPrime = maxPrime := min_eq_right (by push_cast at hfuel; omega)
    rw [this] at hps
    exact ⟨⟨_, hps⟩, fun h => absurd h (by simp), fun _ => hps⟩
  | succ fuel ih =>
    rw [segmentLoop]
    split
    · next hlm =>
      have hhigh := highOf_eq maxPrime low
      have hh1 : low ≤ highOf maxPrime low := by rw [hhigh]; exact le_min (by omega) hlm
      have hh2 : highOf maxPrime low ≤ maxPrime := by rw [hhigh]; exact min_le_right _ _
      have hmin : min (low - 1) maxPrime = low - 1 := min_eq_left (by omega)
      rw [hmin] at hps
      have hsurv : ∀ x : Int, low ≤ x → x ≤ highOf maxPrime low →
          ((crossBase low (highOf maxPrime low) (primesUpTo s)
            (List.replicate (highOf maxPrime low - low + 1).toNat true)).getD
              (x - low).toNat false = true ↔ (Nat.Prime x.toNat ∧ (c : Int) < x)) := by
        intro x hx1 hx2
        rw [window_survivor low (highOf maxPrime low) s hlow (by omega) x hx1 hx2]
        have : (s : Int) < x ↔ (c : Int) < x := by
          rcases hc with h | h
          · have : c = s := by omega
            rw [this]
          · constructor
            · intro _; omega
            · intro _; omega
        rw [this]
      have hap := appendLoop_primes n low (highOf maxPrime low) _ c hsurv
        (highOf maxPrime low - low + 1).toNat low ps (le_refl _) (by omega) hps (by omega)
      simp only []
      split
      · next primes1 heq =>
        rw [heq] at hap
        exact ⟨hap.1, fun _ => hap.2.1 rfl, fun h => absurd h (by simp)⟩
      · next primes1 heq =>
        rw [heq] at hap
        have hp1 := hap.2.2 rfl
        refine ih (low + segmentSize) primes1 (by omega) ?_ ?_ (by push_cast at hfuel; omega)
        · rcases hc with h | h
          · exact Or.inl h
          · exact Or.inr (by omega)
        · simp only [] at hp1
          rw [hp1, hhigh]
    · next hlm =>
      have : min (low - 1) maxPrime = maxPrime := min_eq_right (by omega)
      rw [this] at hps
      exact ⟨⟨_, hps⟩, fun h => absurd h (by simp), fun _ => hps⟩

/-! ## The square root and the uncached path of `NthPrime` -/

theorem floorSqrtFrom_le (x r : Nat) : floorSqrtFrom x r * floorSqrtFrom x r ≤ x := by
  induction r with
  | zero => simp [floorSqrtFrom]
  | succ r ih =>
    rw [floorSqrtFrom]
    split
    · assumption
    · exact ih

theorem lt_floorSqrtFrom (x r : Nat) (h : x < (r + 1) * (r + 1)) :
    x < (floorSqrtFrom x r + 1) * (floorSqrtFrom x r + 1) := by
  induction r with
  | zero => simpa [floorSqrtFrom] using h
  | succ r ih =>
    rw [floorSqrtFrom]
    split
    · exact h
    · next hlt => exact ih (by omega)

theorem lt_floorSqrt_succ_sq (x : Nat) : x < (floorSqrt x + 1) * (floorSqrt x + 1) :=
  lt_floorSqrtFrom x x (by nlinarith)

theorem floorSqrt_eq_sqrt (x : Nat) : floorSqrt x = Nat.sqrt x :=
  Nat.eq_sqrt.2 ⟨floorSqrtFrom_le x x, lt_floorSqrt_succ_sq x⟩

/-- On a cache that lists the primes up to a bound, the uncached path leaves a
cache of the same kind; it holds more than `n` entries or all the primes up to
`maxPrime`. -/
theorem sieveTo_primesUpTo (maxPrime : Int) (m : Nat) (n : Int) :
    ∃ m1 : Nat, sieveTo maxPrime (primesUpTo m) n = primesUpTo m1 ∧
      (n < ((sieveTo maxPrime (primesUpTo m) n).length : Int) ∨ maxPrime ≤ (m1 : Int)) := by
  obtain ⟨a, ha1, -, hstart, heq⟩ := primesUpTo_frontier m
  have hsq : maxPrime < ((floorSqrt maxPrime.toNat + 1 : Nat) : Int) *
      ((floorSqrt maxPrime.toNat + 1 : Nat) : Int) := by
    have h := lt_floorSqrt_succ_sq maxPrime.toNat
    have h2 : (maxPrime.toNat : Int) <
        ((floorSqrt maxPrime.toNat + 1 : Nat) : Int) * ((floorSqrt maxPrime.toNat + 1 : Nat) : Int) := by
      exact_mod_cast h
    have := Int.self_le_toNat maxPrime
    omega
  have hbase : generatePrimesUpTo ((floorSqrt maxPrime.toNat : Int) + 1) =
      primesUpTo (floorSqrt maxPrime.toNat + 1) := by
    rw [generatePrimesUpTo_eq]
    congr 1
  have hloop := segmentLoop_primes n maxPrime (floorSqrt maxPrime.toNat + 1)
    (max a (floorSqrt maxPrime.toNat + 1)) (le_max_right _ _) hsq
    (maxPrime + 1 - ((a : Int) + 1)).toNat ((a : Int) + 1)
    (primesUpTo (max a (floorSqrt maxPrime.toNat + 1))) (by omega)
    (by
      rcases le_total a (floorSqrt maxPrime.toNat + 1) with h | h
      · left; rw [max_eq_right h]
      · right; rw [max_eq_left h]; omega)
    (by
      congr 1
      have h1 : min ((a : Int) + 1 - 1) maxPrime ≤ (a : Int) := by
        have := min_le_left ((a : Int) + 1 - 1) maxPrime
        omega
      have h2 : (a : Int) ≤ ((max a (floorSqrt maxPrime.toNat + 1) : Nat) : Int) := by
        exact_mod_cast le_max_left _ _
      rw [max_eq_left (le_trans h1 h2), Int.toNat_ofNat])
    (by have := Int.self_le_toNat (maxPrime + 1 - ((a : Int) + 1)); omega)
  have hsieve : sieveTo maxPrime (primesUpTo m) n =
      (segmentLoop n maxPrime (primesUpTo (floorSqrt maxPrime.toNat + 1))
        (maxPrime + 1 - ((a : Int) + 1)).toNat ((a : Int) + 1)
        (primesUpTo (max a (floorSqrt maxPrime.toNat + 1)))).2 := by
    unfold sieveTo
    simp only []
    rw [hstart, hbase, heq, mergeBase_primesUpTo]
  rw [hsieve]
  obtain ⟨⟨m1, hm1⟩, htrue, hfalse⟩ := hloop
  cases hflag : (segmentLoop n maxPrime (primesUpTo (floorSqrt maxPrime.toNat + 1))
        (maxPrime + 1 - ((a : Int) + 1)).toNat ((a : Int) + 1)
        (primesUpTo (max a (floorSqrt maxPrime.toNat + 1)))).1 with
  | true => exact ⟨m1, hm1, Or.inl (htrue hflag)⟩
  | false =>
    refine ⟨_, hfalse hflag, Or.inr ?_⟩
    have := Int.self_le_toNat (max ((max a (floorSqrt maxPrime.toNat + 1) : Nat) : Int) maxPrime)
    have := le_max_right ((max a (floorSqrt maxPrime.toNat + 1) : Nat) : Int) maxPrime
    omega

theorem NthPrime_snd_primesUpTo (maxPrimeOf : Int → Int) (m : Nat) (n : Int) :
    ∃ m1 : Nat, (NthPrime maxPrimeOf (primesUpTo m) n).2 = primesUpTo m1 := by
  unfold NthPrime
  split
  · exact ⟨m, rfl⟩
  · split
    · exact ⟨m, rfl⟩
    · split
      · exact ⟨m, rfl⟩
      · obtain ⟨m1, h, -⟩ := sieveTo_primesUpTo (maxPrimeOf n) m n
        exact ⟨m1, h⟩

theorem reachable_primesUpTo (maxPrimeOf : Int → Int) (primes : List Int)
    (h : Reachable maxPrimeOf primes) : ∃ m : Nat, primes = primesUpTo m := by
  induction h with
  | fresh => exact ⟨0, primesUpTo_zero.symm⟩
  | call primes n _ ih =>
    obtain ⟨m, rfl⟩ := ih
    exact NthPrime_snd_primesUpTo maxPrimeOf m n

theorem lt_length_primesUpTo (m k : Nat) (h : Nat.nth Nat.Prime k ≤ m) :
    k < (primesUpTo m).length := by
  rw [primesUpTo_length]
  have := Nat.count_monotone Nat.Prime (Nat.add_le_add_right h 1)
  rw [count_prime_nth_succ] at this
  omega

/-- On a cache that lists the primes up to a bound, a call with `n ≥ 0` returns
the `n`-th prime, provided that the bound of the call is at least that prime
when the call has to sieve. -/
theorem NthPrime_fst_primesUpTo (maxPrimeOf : Int → Int) (m : Nat) (n : Int) (h0 : 0 ≤ n)
    (hbound : 1 ≤ n → ((primesUpTo m).length : Int) ≤ n →
      (Nat.nth Nat.Prime n.toNat : Int) ≤ maxPrimeOf n) :
    (NthPrime maxPrimeOf (primesUpTo m) n).1 = some (Nat.nth Nat.Prime n.toNat : Int) := by
  unfold NthPrime
  rw [if_neg (by omega)]
  split
  · next hz => subst hz; simp [Nat.nth_prime_zero_eq_two]
  · next hz =>
    split
    · next hlt => exact primesUpTo_isFirstPrimes m n.toNat (by omega)
    · next hge =>
      obtain ⟨m1, hm1, hlen⟩ := sieveTo_primesUpTo (maxPrimeOf n) m n
      have hb := hbound (by omega) (by omega)
      simp only []
      rw [hm1] at hlen ⊢
      apply primesUpTo_isFirstPrimes
      rcases hlen with h | h
      · omega
      · exact lt_length_primesUpTo m1 n.toNat (by omega)

/-! ## The early exit -/

theorem appendLoop_length (n low high : Int) (seg : List Bool) (fuel : Nat) (i : Int)
    (ps : List Int) (hlen : (ps.length : Int) ≤ n) :
    ((appendLoop n low high seg fuel i ps).1 = true →
        ((appendLoop n low high seg fuel i ps).2.length : Int) = n + 1 ∧
        (appendLoop n low high seg fuel i ps).2[n.toNat]? =
          some (lastOf (appendLoop n low high seg fuel i ps).2)) ∧
      ((appendLoop n low high seg fuel i ps).1 = false →
        ((appendLoop n low high seg fuel i ps).2.length : Int) ≤ n) := by
  induction fuel generalizing i ps with
  | zero =>
    rw [appendLoop]
    exact ⟨fun h => absurd h (by simp), fun _ => hlen⟩
  | succ fuel ih =>
    rw [appendLoop]
    split
    · split
      · split
        · next hgt =>
          refine ⟨fun _ => ?_, fun h => absurd h (by simp)⟩
          rw [List.length_append, List.length_singleton] at hgt
          push_cast at hgt
          have hn : n.toNat = ps.length := by omega
          refine ⟨by rw [List.length_append, List.length_singleton]; push_cast; omega, ?_⟩
          rw [lastOf_append_singleton, hn]
          simp
        · next hle => exact ih (i + 1) (ps ++ [i]) (by omega)
      · exact ih (i + 1) ps hlen
    · exact ⟨fun h => absurd h (by simp), fun _ => hlen⟩

theorem segmentLoop_length (n maxPrime : Int) (basePrimes : List Int) (fuel : Nat) (low : Int)
    (ps : List Int) (hlen : (ps.length : Int) ≤ n) :
    ((segmentLoop n maxPrime basePrimes fuel low ps).1 = true →
        ((segmentLoop n maxPrime basePrimes fuel low ps).2.length : Int) = n + 1 ∧
        (segmentLoop n maxPrime basePrimes fuel low ps).2[n.toNat]? =
          some (lastOf (segmentLoop n maxPrime basePrimes fuel low ps).2)) ∧
      ((segmentLoop n maxPrime basePrimes fuel low ps).1 = false →
        ((segmentLoop n maxPrime basePrimes fuel low ps).2.length : Int) ≤ n) := by
  induction fuel generalizing low ps with
  | zero =>
    rw [segmentLoop]
    exact ⟨fun h => absurd h (by simp), fun _ => hlen⟩
  | succ fuel ih =>
    rw [segmentLoop]
    split
    · have hap := appendLoop_length n low (highOf maxPrime low)
        (crossBase low (highOf maxPrime low) basePrimes
          (List.replicate (highOf maxPrime low - low + 1).toNat true))
        (highOf maxPrime low - low + 1).toNat low ps hlen
      simp only []
      split
      · next primes1 heq =>
        rw [heq] at hap
        exact ⟨fun _ => hap.1 rfl, fun h => absurd h (by simp)⟩
      · next primes1 heq =>
        rw [heq] at hap
        exact ih (low + segmentSize) primes1 (hap.2 rfl)
    · exact ⟨fun h => absurd h (by simp), fun _ => hlen⟩

theorem mergeBase_primesUpTo_length (s a : Nat) (n : Int)
    (hs : ((primesUpTo s).length : Int) ≤ n) (ha : ((primesUpTo a).length : Int) ≤ n) :
    ((mergeBase (primesUpTo s) (primesUpTo a)).length : Int) ≤ n := by
  rw [mergeBase_primesUpTo]
  rcases le_total a s with h | h
  · rw [max_eq_right h]; exact hs
  · rw [max_eq_left h]; exact ha

theorem getElem?_some_lt (l : List Int) (k : Nat) (v : Int) (h : l[k]? = some v) :
    k < l.length := by
  by_contra hge
  rw [List.getElem?_eq_none (by omega)] at h
  exact absurd h (by simp)

/-! ## Small primes, for the concrete instances -/

theorem nth_prime_one : Nat.nth Nat.Prime 1 = 3 := by
  have h := Nat.nth_count (p := Nat.Prime) (n := 3) (by norm_num)
  have hc : Nat.count Nat.Prime 3 = 1 := by decide
  rwa [hc] at h

theorem nth_prime_two : Nat.nth Nat.Prime 2 = 5 := by
  have h := Nat.nth_count (p := Nat.Prime) (n := 5) (by norm_num)
  have hc : Nat.count Nat.Prime 5 = 2 := by decide
  rwa [hc] at h

theorem nth_prime_three : Nat.nth Nat.Prime 3 = 7 := by
  have h := Nat.nth_count (p := Nat.Prime) (n := 7) (by norm_num)
  have hc : Nat.count Nat.Prime 7 = 3 := by decide
  rwa [hc] at h

theorem nth_prime_four : Nat.nth Nat.Prime 4 = 11 := by
  have h := Nat.nth_count (p := Nat.Prime) (n := 11) (by norm_num)
  have hc : Nat.count Nat.Prime 11 = 4 := by decide
  rwa [hc] at h

theorem nth_prime_nineteen : Nat.nth Nat.Prime 19 = 71 := by
  have h := Nat.nth_count (p := Nat.Prime) (n := 71) (by norm_num)
  have hc : Nat.count Nat.Prime 71 = 19 := by decide
  rwa [hc] at h

theorem isFirstPrimes_235 : IsFirstPrimes [2, 3, 5] := by
  intro i hi
  have hi3 : i < 3 := by simpa using hi
  interval_cases i
  · simp [Nat.nth_prime_zero_eq_two]
  · simp [nth_prime_one]
  · simp [nth_prime_two]

/-- The bound of the source for `n = 1` (`nf = 2`), in exact real arithmetic:
`floor(2 * (ln 2 + ln (ln 2)) + 1) + 10 = 11`. -/
theorem bound_at_one :
    ⌊(2 : ℝ) * (Real.log 2 + Real.log (Real.log 2)) + 1⌋ + 10 = 11 := by
  have hlo := Real.log_two_gt_d9
  have hhi := Real.log_two_lt_d9
  have hpos : (0 : ℝ) < Real.log 2 := by linarith
  have hupper : Real.log (Real.log 2) ≤ Real.log 2 - 1 := Real.log_le_sub_one_of_pos hpos
  have hlower : -Real.log 2 ≤ Real.log (Real.log 2) := by
    have h : Real.log (1 / 2) ≤ Real.log (Real.log 2) :=
      Real.log_le_log (by norm_num) (by linarith)
    rw [one_div, Real.log_inv] at h
    exact h
  have hfloor : ⌊(2 : ℝ) * (Real.log 2 + Real.log (Real.log 2)) + 1⌋ = 1 := by
    rw [Int.floor_eq_iff]
    constructor
    · push_cast; linarith
    · push_cast; linarith
  rw [hfloor]
  rfl

/-- The cache `[2, 3, 5]` is the one a fresh oracle holds after `NthPrime 1`
with the bound 11. -/
theorem reachable_235 : Reachable (fun _ => 11) [2, 3, 5] :=
  Reachable.call [] 1 Reachable.fresh

/-! ## The checked run agrees with the plain one -/

theorem writeAt_ok (f : Fault) (a : List Bool) (idx : Int) (b : Bool) (h0 : 0 ≤ idx)
    (h : idx < (a.length : Int)) : writeAt f a idx b = .ok (a.set idx.toNat b) := by
  unfold writeAt
  rw [if_pos ⟨h0, h⟩]

theorem readAt_ok (f : Fault) (a : List Bool) (idx : Int) (h0 : 0 ≤ idx)
    (h : idx < (a.length : Int)) : readAt f a idx = .ok (a.getD idx.toNat false) := by
  unfold readAt
  rw [if_pos ⟨h0, h⟩]

theorem readPrime_ok (f : Fault) (primes : List Int) (idx : Int) (h0 : 0 ≤ idx)
    (h : idx < (primes.length : Int)) :
    readPrime f primes idx = .ok (primes.getD idx.toNat 0) := by
  unfold readPrime
  rw [if_pos ⟨h0, h⟩]

theorem foldlM_writeAt (f : Fault) (b : Bool) (l : List Nat) (a : List Bool)
    (h : ∀ i ∈ l, i < a.length) :
    l.foldlM (fun isPrime (i : Nat) => writeAt f isPrime (i : Int) b) a =
      .ok (l.foldl (fun isPrime i => isPrime.set i b) a) := by
  induction l generalizing a with
  | nil => rfl
  | cons x l ih =>
    have hx := h x (List.mem_cons_self _ _)
    rw [List.foldlM_cons, writeAt_ok f a (x : Int) b (by omega) (by omega), List.foldl_cons]
    exact ih (a.set x b) (fun i hi => by
      rw [List.length_set]; exact h i (List.mem_cons_of_mem _ hi))

theorem initFlagsChecked_eq (limit : Nat) : initFlagsChecked limit = .ok (initFlags limit) := by
  unfold initFlagsChecked initFlags
  apply foldlM_writeAt
  intro i hi
  rw [List.mem_range'_1] at hi
  rw [List.length_replicate]
  omega

theorem markMultiplesChecked_eq (limit i : Nat) (hi : 0 < i) (fuel j : Nat) (a : List Bool)
    (hlen : a.length = limit + 1) (hfuel : limit + 1 ≤ fuel + j) :
    markMultiplesChecked limit i fuel j a = .ok (markMultiples limit i fuel j a) := by
  induction fuel generalizing j a with
  | zero =>
    rw [markMultiplesChecked, markMultiples, if_neg (by omega)]
  | succ fuel ih =>
    rw [markMultiplesChecked, markMultiples]
    split
    · next hj =>
      rw [writeAt_ok _ a (j : Int) false (by omega) (by omega)]
      exact ih (j + i) _ (by rw [List.length_set]; exact hlen) (by omega)
    · rfl

theorem sieveLoop_length (limit fuel i : Nat) (a : List Bool) :
    (sieveLoop limit fuel i a).length = a.length := by
  induction fuel generalizing i a with
  | zero => rfl
  | succ fuel ih =>
    rw [sieveLoop]
    split
    · rw [ih]
      split
      · exact markMultiples_length _ _ _ _ _
      · rfl
    · rfl

theorem sieveLoopChecked_eq (limit fuel i : Nat) (a : List Bool) (h2 : 2 ≤ i)
    (hlen : a.length = limit + 1) (hfuel : limit + 2 ≤ fuel + i) :
    sieveLoopChecked limit fuel i a = .ok (sieveLoop limit fuel i a) := by
  induction fuel generalizing i a with
  | zero =>
    have : ¬ i * i ≤ limit := by nlinarith
    rw [sieveLoopChecked, sieveLoop, if_neg this]
  | succ fuel ih =>
    rw [sieveLoopChecked, sieveLoop]
    split
    · next hsq =>
      have hil : i ≤ limit := by nlinarith
      rw [readAt_ok _ a (i : Int) (by omega) (by omega)]
      have hidx : ((i : Nat) : Int).toNat = i := Int.toNat_ofNat i
      rw [hidx]
      cases hflag : a.getD i false with
      | true =>
        simp only [if_true]
        rw [markMultiplesChecked_eq limit i (by omega) (limit + 1) (i * i) a hlen (by omega)]
        exact ih (i + 1) _ (by omega) (by rw [markMultiples_length]; exact hlen) (by omega)
      | false =>
        simp only [Bool.false_eq_true, if_false]
        exact ih (i + 1) a (by omega) hlen (by omega)
    · rfl

theorem collectPrimesChecked_eq (limit : Nat) (a : List Bool) (hlen : a.length = limit + 1) :
    collectPrimesChecked limit a = .ok (collectPrimes limit a) := by
  unfold collectPrimesChecked collectPrimes
  have key : ∀ (l : List Nat) (acc : List Int), (∀ i ∈ l, i < a.length) →
      l.foldlM (fun primes (i : Nat) =>
        match readAt Fault.isPrimeIndex a (i : Int) with
        | Except.error e => Except.error e
        | Except.ok flag => Except.ok (if flag then primes ++ [(i : Int)] else primes)) acc =
      Except.ok (l.foldl (fun primes i => if a.getD i false then primes ++ [(i : Int)] else primes)
        acc) := by
    intro l
    induction l with
    | nil => intro acc _; rfl
    | cons x l ih =>
      intro acc h
      have hx := h x (List.mem_cons_self _ _)
      rw [List.foldlM_cons, readAt_ok _ a (x : Int) (by omega) (by omega), List.foldl_cons]
      have hidx : ((x : Nat) : Int).toNat = x := Int.toNat_ofNat x
      rw [hidx]
      exact ih _ (fun i hi => h i (List.mem_cons_of_mem _ hi))
  apply key
  intro i hi
  rw [List.mem_range'_1] at hi
  omega

theorem generatePrimesUpToChecked_eq (limit : Int) :
    generatePrimesUpToChecked limit = .ok (generatePrimesUpTo limit) := by
  unfold generatePrimesUpToChecked generatePrimesUpTo
  split
  · rfl
  · rw [initFlagsChecked_eq]
    simp only []
    rw [sieveLoopChecked_eq _ _ _ _ (le_refl 2) (initFlags_length _) (by omega)]
    simp only []
    exact collectPrimesChecked_eq _ _ (by rw [sieveLoop_length, initFlags_length])

theorem getD_eq_getElem? (primes : List Int) (k : Nat) (h : k < primes.length) :
    primes[k]? = some (primes.getD k 0) := by
  rw [List.getD_eq_getElem?_getD, List.getElem?_eq_getElem h]
  rfl

theorem startOfChecked_eq (primes : List Int) :
    startOfChecked primes = .ok (startOf primes) := by
  unfold startOfChecked startOf lastOf
  split
  · next hpos =>
    rw [readPrime_ok _ primes _ (by omega) (by omega)]
    have : ((primes.length : Int) - 1).toNat = primes.length - 1 := by omega
    rw [this]
  · rfl

theorem mergeBaseChecked_eq (basePrimes primes : List Int) :
    mergeBaseChecked basePrimes primes = .ok (mergeBase basePrimes primes) := by
  unfold mergeBaseChecked mergeBase
  induction basePrimes generalizing primes with
  | nil => rfl
  | cons bp rest ih =>
    rw [List.foldlM_cons, List.foldl_cons]
    by_cases h0 : primes.length = 0
    · rw [if_pos h0, if_pos (Or.inl h0)]
      exact ih _
    · rw [if_neg h0, readPrime_ok _ primes _ (by omega) (by omega)]
      have hidx : ((primes.length : Int) - 1).toNat = primes.length - 1 := by omega
      have hlast : primes.getD ((primes.length : Int) - 1).toNat 0 = lastOf primes := by
        rw [hidx]; rfl
      rw [hlast]
      by_cases hlt : lastOf primes < bp
      · rw [if_pos (Or.inr hlt)]
        simp only [hlt, if_true]
        exact ih _
      · rw [if_neg (fun h => h.elim h0 hlt)]
        simp only [hlt, if_false]
        exact ih _

theorem crossOffChecked_eq (low high bp : Int) (hbp : 0 < bp) (fuel : Nat) (j : Int)
    (seg : List Bool) (hlow : low ≤ j) (hlen : (seg.length : Int) = high - low + 1)
    (hfuel : high + 1 - j ≤ (fuel : Int)) :
    crossOffChecked low high bp fuel j seg = .ok (crossOff low high bp fuel j seg) := by
  induction fuel generalizing j seg with
  | zero =>
    rw [crossOffChecked, crossOff, if_neg (by push_cast at hfuel; omega)]
  | succ fuel ih =>
    rw [crossOffChecked, crossOff]
    split
    · next hj =>
      rw [writeAt_ok _ seg (j - low) false (by omega) (by omega)]
      exact ih (j + bp) _ (by omega) (by rw [List.length_set]; exact hlen)
        (by push_cast at hfuel; omega)
    · rfl

theorem crossBaseChecked_eq (low high : Int) (hlow : 1 ≤ low) (basePrimes : List Int)
    (hbase : ∀ bp ∈ basePrimes, 0 < bp) (seg : List Bool)
    (hlen : (seg.length : Int) = high - low + 1) :
    crossBaseChecked low high basePrimes seg = .ok (crossBase low high basePrimes seg) := by
  unfold crossBaseChecked crossBase
  induction basePrimes generalizing seg with
  | nil => rfl
  | cons bp rest ih =>
    have hbp : 0 < bp := hbase bp (List.mem_cons_self _ _)
    rw [List.foldlM_cons, List.foldl_cons,
      crossOffChecked_eq low high bp hbp _ _ seg (startIdx_spec low bp hlow hbp).2.1 hlen
        (by have := Int.self_le_toNat (high + 1 - startIdx low bp); omega)]
    exact ih (fun b hb => hbase b (List.mem_cons_of_mem _ hb)) _
      (by rw [crossOff_length]; exact hlen)

theorem appendLoopChecked_eq (n low high : Int) (seg : List Bool) (fuel : Nat) (i : Int)
    (ps : List Int) (hlow : low ≤ i) (hlen : (seg.length : Int) = high - low + 1)
    (hfuel : high + 1 - i ≤ (fuel : Int)) :
    appendLoopChecked n low high seg fuel i ps = .ok (appendLoop n low high seg fuel i ps) := by
  induction fuel generalizing i ps with
  | zero =>
    rw [appendLoopChecked, appendLoop, if_neg (by push_cast at hfuel; omega)]
  | succ fuel ih =>
    rw [appendLoopChecked, appendLoop]
    split
    · next hi =>
      rw [readAt_ok _ seg (i - low) (by omega) (by omega)]
      cases hflag : seg.getD (i - low).toNat false with
      | true =>
        simp only [if_true]
        split
        · rfl
        · exact ih (i + 1) _ (by omega) (by push_cast at hfuel; omega)
      | false =>
        simp only [Bool.false_eq_true, if_false]
        exact ih (i + 1) _ (by omega) (by push_cast at hfuel; omega)
    · rfl

theorem window_length (maxPrime low : Int) (hlow : low ≤ maxPrime) :
    1 ≤ highOf maxPrime low - low + 1 ∧ highOf maxPrime low - low + 1 ≤ segmentSize := by
  unfold highOf segmentSize
  split <;> omega

theorem segmentLoopChecked_eq (n maxPrime : Int) (basePrimes : List Int)
    (hbase : ∀ bp ∈ basePrimes, 0 < bp) (fuel : Nat) (low : Int) (ps : List Int)
    (hlow : 1 ≤ low) (hfuel : maxPrime + 1 - low ≤ (fuel : Int)) :
    segmentLoopChecked n maxPrime basePrimes fuel low ps =
      .ok (segmentLoop n maxPrime basePrimes fuel low ps) := by
  induction fuel generalizing low ps with
  | zero =>
    rw [segmentLoopChecked, segmentLoop, if_neg (by push_cast at hfuel; omega)]
  | succ fuel ih =>
    rw [segmentLoopChecked, segmentLoop]
    split
    · next hlm =>
      have hw := window_length maxPrime low hlm
      have hlen : ((List.replicate (highOf maxPrime low - low + 1).toNat true).length : Int) =
          highOf maxPrime low - low + 1 := by
        rw [List.length_replicate]; omega
      rw [if_pos hw, crossBaseChecked_eq low _ hlow basePrimes hbase _ hlen]
      simp only []
      rw [appendLoopChecked_eq n low _ _ _ low ps (le_refl _)
        (by rw [crossBase_length]; exact hlen) (by omega)]
      generalize appendLoop n low (highOf maxPrime low)
        (crossBase low (highOf maxPrime low) basePrimes
          (List.replicate (highOf maxPrime low - low + 1).toNat true))
        (highOf maxPrime low - low + 1).toNat low ps = r
      obtain ⟨flag, primes1⟩ := r
      cases flag
      · exact ih (low + segmentSize) primes1 (by unfold segmentSize; omega)
          (by unfold segmentSize; push_cast at hfuel; omega)
      · rfl
    · rfl

theorem appendLoop_flag (n low high : Int) (seg : List Bool) (fuel : Nat) (i : Int)
    (ps : List Int) (h : (appendLoop n low high seg fuel i ps).1 = true) :
    n < ((appendLoop n low high seg fuel i ps).2.length : Int) := by
  induction fuel generalizing i ps with
  | zero => rw [appendLoop] at h; exact absurd h (by simp)
  | succ fuel ih =>
    rw [appendLoop] at h ⊢
    split at h
    · split at h
      · split at h
        · next hgt => rw [if_pos ‹_›, if_pos ‹_›, if_pos hgt]; exact hgt
        · next hgt => rw [if_pos ‹_›, if_pos ‹_›, if_neg hgt]; exact ih _ _ h
      · next hf => rw [if_pos ‹_›, if_neg hf]; exact ih _ _ h
    · exact absurd h (by simp)

theorem segmentLoop_flag (n maxPrime : Int) (basePrimes : List Int) (fuel : Nat) (low : Int)
    (ps : List Int) (h : (segmentLoop n maxPrime basePrimes fuel low ps).1 = true) :
    n < ((segmentLoop n maxPrime basePrimes fuel low ps).2.length : Int) := by
  induction fuel generalizing low ps with
  | zero => rw [segmentLoop] at h; exact absurd h (by simp)
  | succ fuel ih =>
    rw [segmentLoop] at h ⊢
    split at h
    · next hlm =>
      rw [if_pos hlm]
      simp only [] at h ⊢
      have hap := appendLoop_flag n low (highOf maxPrime low)
        (crossBase low (highOf maxPrime low) basePrimes
          (List.replicate (highOf maxPrime low - low + 1).toNat true))
        (highOf maxPrime low - low + 1).toNat low ps
      revert h hap
      generalize appendLoop n low (highOf maxPrime low)
        (crossBase low (highOf maxPrime low) basePrimes
          (List.replicate (highOf maxPrime low - low + 1).toNat true))
        (highOf maxPrime low - low + 1).toNat low ps = r
      obtain ⟨flag, primes1⟩ := r
      cases flag
      · intro h _; exact ih _ _ h
      · intro _ hap; exact hap rfl
    · exact absurd h (by simp)

theorem generatePrimesUpTo_pos (limit : Int) : ∀ bp ∈ generatePrimesUpTo limit, 0 < bp := by
  intro bp hbp
  rw [generatePrimesUpTo_eq] at hbp
  have := ((mem_primesUpTo _ bp).1 hbp).1
  omega

/-- On a cache whose `start` is at least 1 the checked run stops nowhere but at
the fallback read, and it agrees with the plain run: it returns the value and
the cache of the plain run, and stops at the fallback read exactly when the
plain run has no value. -/
theorem NthPrimeChecked_eq (maxPrimeOf : Int → Int) (primes : List Int) (n : Int)
    (hstart : 1 ≤ startOf primes) :
    NthPrimeChecked maxPrimeOf primes n =
      match (NthPrime maxPrimeOf primes n).1 with
      | some v => .ok (v, (NthPrime maxPrimeOf primes n).2)
      | none => .error Fault.fallbackRead := by
  unfold NthPrimeChecked NthPrime
  split
  · rfl
  · split
    · rfl
    · next hneg hz =>
      split
      · next hlt =>
        rw [readPrime_ok _ primes n (by omega) hlt]
        simp only []
        rw [getD_eq_getElem? primes n.toNat (by omega)]
      · next hge =>
        rw [startOfChecked_eq, generatePrimesUpToChecked_eq]
        simp only []
        rw [mergeBaseChecked_eq]
        simp only []
        rw [segmentLoopChecked_eq n (maxPrimeOf n) _ (generatePrimesUpTo_pos _)
          (maxPrimeOf n + 1 - startOf primes).toNat (startOf primes) _ hstart
          (by have := Int.self_le_toNat (maxPrimeOf n + 1 - startOf primes); omega)]
        unfold sieveTo
        simp only []
        have hflag := segmentLoop_flag n (maxPrimeOf n)
          (generatePrimesUpTo ((floorSqrt (maxPrimeOf n).toNat : Int) + 1))
          (maxPrimeOf n + 1 - startOf primes).toNat (startOf primes)
          (mergeBase (generatePrimesUpTo ((floorSqrt (maxPrimeOf n).toNat : Int) + 1)) primes)
        revert hflag
        generalize segmentLoop n (maxPrimeOf n)
          (generatePrimesUpTo ((floorSqrt (maxPrimeOf n).toNat : Int) + 1))
          (maxPrimeOf n + 1 - startOf primes).toNat (startOf primes)
          (mergeBase (generatePrimesUpTo ((floorSqrt (maxPrimeOf n).toNat : Int) + 1)) primes)
          = r
        obtain ⟨flag, primes2⟩ := r
        intro hflag
        cases flag
        · simp only []
          by_cases hin : n < (primes2.length : Int)
          · rw [readPrime_ok _ primes2 n (by omega) hin, getD_eq_getElem? primes2 n.toNat (by omega)]
          · unfold readPrime
            rw [if_neg (fun h => hin h.2), List.getElem?_eq_none (by omega)]
        · have hin := hflag rfl
          simp only [] at hin ⊢
          rw [readPrime_ok _ primes2 n (by omega) hin, getD_eq_getElem? primes2 n.toNat (by omega)]

/-! ## What the segmented sieve appends -/

theorem appendLoop_mem (n low high : Int) (seg : List Bool) (fuel : Nat) (i : Int)
    (ps : List Int) (x : Int) (hx : x ∈ (appendLoop n low high seg fuel i ps).2) :
    x ∈ ps ∨ (i ≤ x ∧ x ≤ high ∧ seg.getD (x - low).toNat false = true) := by
  induction fuel generalizing i ps with
  | zero => rw [appendLoop] at hx; exact Or.inl hx
  | succ fuel ih =>
    rw [appendLoop] at hx
    split at hx
    · next hih =>
      split at hx
      · next hflag =>
        have hnew : ∀ y : Int, y ∈ ps ++ [i] →
            y ∈ ps ∨ (i ≤ y ∧ y ≤ high ∧ seg.getD (y - low).toNat false = true) := by
          intro y hy
          rcases List.mem_append.1 hy with h | h
          · exact Or.inl h
          · rw [List.mem_singleton] at h
            subst h
            exact Or.inr ⟨le_refl _, hih, hflag⟩
        split at hx
        · exact hnew x hx
        · rcases ih (i + 1) (ps ++ [i]) hx with h | h
          · exact hnew x h
          · exact Or.inr ⟨by omega, h.2⟩
      · rcases ih (i + 1) ps hx with h | h
        · exact Or.inl h
        · exact Or.inr ⟨by omega, h.2⟩
    · exact Or.inl hx

theorem segmentLoop_mem (n maxPrime : Int) (basePrimes : List Int) (fuel : Nat) (low : Int)
    (ps : List Int) (x : Int) (hx : x ∈ (segmentLoop n maxPrime basePrimes fuel low ps).2) :
    x ∈ ps ∨ (low ≤ x ∧ x ≤ maxPrime) := by
  have hseg : (0 : Int) < segmentSize := by unfold segmentSize; omega
  induction fuel generalizing low ps with
  | zero => rw [segmentLoop] at hx; exact Or.inl hx
  | succ fuel ih =>
    rw [segmentLoop] at hx
    split at hx
    · next hlm =>
      have hh2 : highOf maxPrime low ≤ maxPrime := by
        rw [highOf_eq]; exact min_le_right _ _
      simp only [] at hx
      have hap := appendLoop_mem n low (highOf maxPrime low)
        (crossBase low (highOf maxPrime low) basePrimes
          (List.replicate (highOf maxPrime low - low + 1).toNat true))
        (highOf maxPrime low - low + 1).toNat low ps
      revert hx hap
      generalize appendLoop n low (highOf maxPrime low)
        (crossBase low (highOf maxPrime low) basePrimes
          (List.replicate (highOf maxPrime low - low + 1).toNat true))
        (highOf maxPrime low - low + 1).toNat low ps = r
      obtain ⟨flag, primes1⟩ := r
      have hstep : ∀ y : Int, (y ∈ ps ∨ (low ≤ y ∧ y ≤ highOf maxPrime low ∧
          (crossBase low (highOf maxPrime low) basePrimes
            (List.replicate (highOf maxPrime low - low + 1).toNat true)).getD
              (y - low).toNat false = true)) → y ∈ ps ∨ (low ≤ y ∧ y ≤ maxPrime) := by
        rintro y (h | h)
        · exact Or.inl h
        · exact Or.inr ⟨h.1, by omega⟩
      cases flag
      · intro hx hap
        rcases ih (low + segmentSize) primes1 hx with h | h
        · exact hstep x (hap x h)
        · exact Or.inr ⟨by omega, h.2⟩
      · intro hx hap
        exact hstep x (hap x hx)
    · exact Or.inl hx

theorem floorSqrt_succ_le (x : Nat) (hx : 2 ≤ x) : floorSqrt x + 1 ≤ x := by
  have h := floorSqrtFrom_le x x
  unfold floorSqrt
  by_contra hlt
  have hge : x ≤ floorSqrtFrom x x := by omega
  have : x * x ≤ floorSqrtFrom x x * floorSqrtFrom x x := Nat.mul_le_mul hge hge
  nlinarith

theorem floorSqrt_le_self (x : Nat) : floorSqrt x ≤ x := by
  have h := floorSqrtFrom_le x x
  unfold floorSqrt
  by_contra hlt
  have hge : x + 1 ≤ floorSqrtFrom x x := by omega
  have : (x + 1) * (x + 1) ≤ floorSqrtFrom x x * floorSqrtFrom x x := Nat.mul_le_mul hge hge
  nlinarith

/-- The merge of the base primes into a cache that lists the primes up to a
bound, in terms of the frontier `a` of that cache. -/
theorem mergeBase_frontier (limit : Int) (m : Nat) :
    ∃ a : Nat, 1 ≤ a ∧ startOf (primesUpTo m) = (a : Int) + 1 ∧ primesUpTo m = primesUpTo a ∧
      mergeBase (generatePrimesUpTo limit) (primesUpTo m) = primesUpTo (max a limit.toNat) := by
  obtain ⟨a, ha1, -, hstart, heq⟩ := primesUpTo_frontier m
  refine ⟨a, ha1, hstart, heq, ?_⟩
  rw [generatePrimesUpTo_eq, heq, mergeBase_primesUpTo]

theorem nth_prime_gt_of_length_le (a : Nat) (k : Nat) (h : (primesUpTo a).length ≤ k) :
    a < Nat.nth Nat.Prime k := by
  rw [primesUpTo_length] at h
  by_contra hle
  have : Nat.nth Nat.Prime k < a + 1 := by omega
  have h2 : k < Nat.count Nat.Prime (a + 1) :=
    (Nat.lt_nth_iff_count_lt Nat.infinite_setOf_prime).2 this
  omega

theorem three_le_nth_prime (k : Nat) (hk : 1 ≤ k) : 3 ≤ Nat.nth Nat.Prime k := by
  have h := (Nat.nth_le_nth Nat.infinite_setOf_prime).2 hk
  rw [nth_prime_one] at h
  exact h

theorem primesUpTo_min_of_le (m : Nat) (bound : Int) (h : ∀ x ∈ primesUpTo m, x ≤ bound) :
    primesUpTo m = primesUpTo (min m bound.toNat) := by
  apply primesUpTo_mono_eq _ _ (min_le_left _ _)
  intro q hq hqm hp
  have hmem : ((q : Nat) : Int) ∈ primesUpTo m :=
    (mem_primesUpTo m (q : Int)).2 ⟨by have := hp.two_le; omega, by omega, by simpa using hp⟩
  have := h _ hmem
  have hq2 : q ≤ bound.toNat := by omega
  have : q ≤ min m bound.toNat := le_min hqm hq2
  omega

/-- When the bound of the call is below the `n`-th prime and the cache lists
fewer than `n + 1` primes, the uncached path leaves at most `n` entries. -/
theorem sieveTo_length_le (maxPrime : Int) (m : Nat) (n : Int) (hn : 1 ≤ n)
    (hlen : ((primesUpTo m).length : Int) ≤ n)
    (hlow : maxPrime < (Nat.nth Nat.Prime n.toNat : Int)) :
    ((sieveTo maxPrime (primesUpTo m) n).length : Int) ≤ n := by
  by_contra hgt
  obtain ⟨m1, hm1, -⟩ := sieveTo_primesUpTo maxPrime m n
  have hlt : n.toNat < (primesUpTo m1).length := by rw [← hm1]; omega
  have hget := primesUpTo_isFirstPrimes m1 n.toNat hlt
  have hmem : (Nat.nth Nat.Prime n.toNat : Int) ∈ sieveTo maxPrime (primesUpTo m) n := by
    rw [hm1]
    exact List.mem_iff_getElem?.2 ⟨_, hget⟩
  obtain ⟨a, ha1, hstart, heq, hmerge⟩ :=
    mergeBase_frontier ((floorSqrt maxPrime.toNat : Int) + 1) m
  unfold sieveTo at hmem
  simp only [] at hmem
  rcases segmentLoop_mem _ _ _ _ _ _ _ hmem with h | h
  · rw [hmerge] at h
    have hle := ((mem_primesUpTo _ _).1 h).2.1
    have ha : a < Nat.nth Nat.Prime n.toNat := by
      apply nth_prime_gt_of_length_le
      rw [← heq]; omega
    have h3 := three_le_nth_prime n.toNat (by omega)
    have hs : ((floorSqrt maxPrime.toNat : Int) + 1).toNat = floorSqrt maxPrime.toNat + 1 := by
      omega
    rw [hs] at hle
    have hle' : Nat.nth Nat.Prime n.toNat ≤ max a (floorSqrt maxPrime.toNat + 1) := by
      exact_mod_cast hle
    rcases Nat.lt_or_ge maxPrime.toNat 2 with hsmall | hbig
    · have := floorSqrt_le_self maxPrime.toNat
      have hmax : max a (floorSqrt maxPrime.toNat + 1) ≤ max a 2 := max_le_max (le_refl a) (by omega)
      have : max a 2 < Nat.nth Nat.Prime n.toNat := max_lt ha (by omega)
      omega
    · have := floorSqrt_succ_le maxPrime.toNat hbig
      have hmax : max a (floorSqrt maxPrime.toNat + 1) ≤ max a maxPrime.toNat :=
        max_le_max (le_refl a) this
      have : max a maxPrime.toNat < Nat.nth Nat.Prime n.toNat := max_lt ha (by omega)
      omega
  · omega

/-! ## The value of a call in terms of the cache it leaves -/

theorem NthPrime_fst_eq_getElem (maxPrimeOf : Int → Int) (primes : List Int) (n : Int)
    (hn : 1 ≤ n) :
    (NthPrime maxPrimeOf primes n).1 = (NthPrime maxPrimeOf primes n).2[n.toNat]? := by
  unfold NthPrime
  rw [if_neg (by omega), if_neg (by omega)]
  split <;> rfl

theorem NthPrime_sieve_path (maxPrimeOf : Int → Int) (primes : List Int) (n : Int)
    (hn : 1 ≤ n) (hlen : (primes.length : Int) ≤ n) :
    NthPrime maxPrimeOf primes n =
      ((sieveTo (maxPrimeOf n) primes n)[n.toNat]?, sieveTo (maxPrimeOf n) primes n) := by
  unfold NthPrime
  rw [if_neg (by omega), if_neg (by omega), if_neg (by omega)]

theorem isFirstPrimes_startOf (primes : List Int) (h : IsFirstPrimes primes) :
    1 ≤ startOf primes := by
  obtain ⟨m, rfl⟩ := isFirstPrimes_eq_primesUpTo primes h
  obtain ⟨a, ha1, -, hstart, -⟩ := primesUpTo_frontier m
  omega

/-- On a cache that holds the first primes and is too short for the index
`n ≥ 1`, the call has a value exactly when the bound is at least the `n`-th
prime; with a lower bound it leaves at most `n` entries. -/
theorem NthPrime_value_iff (maxPrimeOf : Int → Int) (primes : List Int) (n : Int)
    (hprimes : IsFirstPrimes primes) (hn : 1 ≤ n) (hlen : (primes.length : Int) ≤ n) :
    ((Nat.nth Nat.Prime n.toNat : Int) ≤ maxPrimeOf n →
        (NthPrime maxPrimeOf primes n).1 = some (Nat.nth Nat.Prime n.toNat : Int)) ∧
      (maxPrimeOf n < (Nat.nth Nat.Prime n.toNat : Int) →
        (NthPrime maxPrimeOf primes n).1 = none ∧
          ((NthPrime maxPrimeOf primes n).2.length : Int) ≤ n) := by
  obtain ⟨m, rfl⟩ := isFirstPrimes_eq_primesUpTo primes hprimes
  constructor
  · intro hb
    exact NthPrime_fst_primesUpTo maxPrimeOf m n (by omega) (fun _ _ => hb)
  · intro hb
    rw [NthPrime_sieve_path maxPrimeOf _ n hn hlen]
    have := sieveTo_length_le (maxPrimeOf n) m n hn hlen hb
    exact ⟨List.getElem?_eq_none (by omega), this⟩

/-- A value returned for an index `n ≥ 0` from a cache that lists the primes up
to a bound is the `n`-th prime. -/
theorem NthPrime_value_prime (maxPrimeOf : Int → Int) (m : Nat) (n v : Int) (h0 : 0 ≤ n)
    (hv : (NthPrime maxPrimeOf (primesUpTo m) n).1 = some v) :
    v = (Nat.nth Nat.Prime n.toNat : Int) := by
  rcases eq_or_lt_of_le h0 with hz | hpos
  · subst hz
    unfold NthPrime at hv
    simp only [lt_self_iff_false, if_false, if_true] at hv
    rw [← Option.some.inj hv]
    simp [Nat.nth_prime_zero_eq_two]
  · rw [NthPrime_fst_eq_getElem maxPrimeOf _ n (by omega)] at hv
    obtain ⟨m1, hm1⟩ := NthPrime_snd_primesUpTo maxPrimeOf m n
    rw [hm1] at hv
    have hlt := getElem?_some_lt _ _ _ hv
    rw [primesUpTo_isFirstPrimes m1 n.toNat hlt] at hv
    exact (Option.some.inj hv).symm

theorem startIdx_le_of_dvd (low bp m : Int) (hlow : 1 ≤ low) (hbp : 0 < bp) (hdvd : bp ∣ m)
    (hm : low ≤ m) : startIdx low bp ≤ m :=
  ((dvd_from_startIdx low bp m hlow hbp hm).2 hdvd).1

/-! ## The bound in exact real arithmetic -/

theorem exactBound_ge_eleven (nf : ℝ) (h : 2 ≤ nf) :
    (11 : Int) ≤ ⌊nf * (Real.log nf + Real.log (Real.log nf)) + 1⌋ + 10 := by
  have hlo := Real.log_two_gt_d9
  have hlog : Real.log 2 ≤ Real.log nf := Real.log_le_log (by norm_num) h
  have hpos : (0 : ℝ) < Real.log nf := by linarith
  have hlower : -Real.log 2 ≤ Real.log (Real.log nf) := by
    have h1 : Real.log (1 / 2) ≤ Real.log (Real.log nf) :=
      Real.log_le_log (by norm_num) (by linarith)
    rw [one_div, Real.log_inv] at h1
    exact h1
  have hsum : 0 ≤ Real.log nf + Real.log (Real.log nf) := by linarith
  have hprod : 0 ≤ nf * (Real.log nf + Real.log (Real.log nf)) :=
    mul_nonneg (by linarith) hsum
  have hfloor : (1 : Int) ≤ ⌊nf * (Real.log nf + Real.log (Real.log nf)) + 1⌋ := by
    rw [Int.le_floor]
    push_cast
    linarith
  omega

theorem exactBound_six :
    (13 : Int) ≤ ⌊(6 : ℝ) * (Real.log 6 + Real.log (Real.log 6)) + 1⌋ + 10 := by
  have he := Real.exp_one_lt_d9
  have hlog : (1 : ℝ) ≤ Real.log 6 := by
    rw [Real.le_log_iff_exp_le (by norm_num)]
    linarith
  have hloglog : 0 ≤ Real.log (Real.log 6) := Real.log_nonneg hlog
  have hfloor : (3 : Int) ≤ ⌊(6 : ℝ) * (Real.log 6 + Real.log (Real.log 6)) + 1⌋ := by
    rw [Int.le_floor]
    push_cast
    linarith
  omega

theorem nth_prime_five : Nat.nth Nat.Prime 5 = 13 := by
  have h := Nat.nth_count (p := Nat.Prime) (n := 13) (by norm_num)
  have hc : Nat.count Nat.Prime 13 = 5 := by decide
  rwa [hc] at h

theorem isExactBound_one : IsExactBound 1 11 := by
  unfold IsExactBound
  have h := bound_at_one
  have h2 : (((1 + 1 : Int)) : ℝ) = 2 := by norm_num
  rw [h2, h]

theorem nth_prime_le_exactBound (n B : Int) (h1 : 1 ≤ n) (h5 : n ≤ 5)
    (hB : IsExactBound n B) : (Nat.nth Nat.Prime n.toNat : Int) ≤ B := by
  unfold IsExactBound at hB
  have hnf : (2 : ℝ) ≤ ((n + 1 : Int) : ℝ) := by
    have : (2 : Int) ≤ n + 1 := by omega
    exact_mod_cast this
  have h11 := exactBound_ge_eleven _ hnf
  rw [← hB] at h11
  interval_cases n
  · have h : (1 : Int).toNat = 1 := rfl
    rw [h, nth_prime_one]; omega
  · have h : (2 : Int).toNat = 2 := rfl
    rw [h, nth_prime_two]; omega
  · have h : (3 : Int).toNat = 3 := rfl
    rw [h, nth_prime_three]; omega
  · have h : (4 : Int).toNat = 4 := rfl
    rw [h, nth_prime_four]; omega
  · have h : (5 : Int).toNat = 5 := rfl
    have h6 : (((5 + 1 : Int)) : ℝ) = 6 := by norm_num
    rw [h6] at hB
    have h13 := exactBound_six
    rw [← hB] at h13
    rw [h, nth_prime_five]; omega

/-! ## The merge and the windows for any list of the base primes -/

theorem eq_of_pairwise_lt_of_mem (l1 l2 : List Int) (h1 : l1.Pairwise (fun a b => a < b))
    (h2 : l2.Pairwise (fun a b => a < b)) (h : ∀ x, x ∈ l1 ↔ x ∈ l2) : l1 = l2 := by
  have hp : l1.Perm l2 :=
    (List.perm_ext_iff_of_nodup (h1.imp (fun h => ne_of_lt h))
      (h2.imp (fun h => ne_of_lt h))).2 h
  exact List.eq_of_perm_of_sorted hp h1 h2

theorem eq_primesUpTo_of_mem (l : List Int) (S : Int) (hsorted : l.Pairwise (fun a b => a < b))
    (hmem : ∀ p : Int, p ∈ l ↔ (2 ≤ p ∧ p ≤ S ∧ Nat.Prime p.toNat)) : l = primesUpTo S.toNat := by
  apply eq_of_pairwise_lt_of_mem l _ hsorted (primesUpTo_pairwise _)
  intro x
  rw [hmem, mem_primesUpTo]
  constructor
  · rintro ⟨h2, hle, hp⟩; exact ⟨h2, by omega, hp⟩
  · rintro ⟨h2, hle, hp⟩; exact ⟨h2, by omega, hp⟩

/-- The merge appends exactly the base primes greater than the last entry the
cache had before, in order, when the base primes increase strictly. -/
theorem mergeBase_eq_filter (basePrimes primes : List Int)
    (hsorted : basePrimes.Pairwise (fun a b => a < b)) :
    mergeBase basePrimes primes =
      primes ++ basePrimes.filter (fun bp => decide (primes.length = 0 ∨ lastOf primes < bp)) := by
  unfold mergeBase
  induction basePrimes generalizing primes with
  | nil => simp
  | cons bp rest ih =>
    rw [List.pairwise_cons] at hsorted
    obtain ⟨hbp, hrest⟩ := hsorted
    rw [List.foldl_cons, List.filter_cons]
    by_cases hc : primes.length = 0 ∨ lastOf primes < bp
    · rw [if_pos hc, ih _ hrest, if_pos (by simpa using hc), lastOf_append_singleton]
      have h1 : rest.filter (fun b => decide ((primes ++ [bp]).length = 0 ∨ bp < b)) = rest := by
        rw [List.filter_eq_self]
        intro b hb
        simpa using hbp b hb
      have h2 : rest.filter (fun b => decide (primes.length = 0 ∨ lastOf primes < b)) = rest := by
        rw [List.filter_eq_self]
        intro b hb
        have := hbp b hb
        rcases hc with h | h
        · simpa using Or.inl h
        · have hlt : lastOf primes < b := lt_trans h this
          simpa using Or.inr hlt
      rw [h1, h2]
      simp
    · rw [if_neg hc, ih _ hrest, if_neg (by simpa using hc)]

theorem primesUpTo_length_mono (a b : Nat) (h : a ≤ b) :
    (primesUpTo a).length ≤ (primesUpTo b).length := by
  rw [primesUpTo_length, primesUpTo_length]
  exact Nat.count_monotone Nat.Prime (by omega)

theorem primesUpTo_max_length (a s : Nat) :
    (primesUpTo (max a s)).length = max (primesUpTo a).length (primesUpTo s).length := by
  rcases le_total a s with h | h
  · rw [max_eq_right h, max_eq_right (primesUpTo_length_mono a s h)]
  · rw [max_eq_left h, max_eq_left (primesUpTo_length_mono s a h)]

theorem window_survivor_of_mem (low high : Int) (S : Nat) (basePrimes : List Int)
    (hlow : 2 ≤ low) (hsq : high < (S : Int) * S)
    (hmem : ∀ p : Int, p ∈ basePrimes ↔ (2 ≤ p ∧ p ≤ (S : Int) ∧ Nat.Prime p.toNat))
    (x : Int) (hx1 : low ≤ x) (hx2 : x ≤ high) :
    (crossBase low high basePrimes
        (List.replicate (high - low + 1).toNat true)).getD (x - low).toNat false = true ↔
      (Nat.Prime x.toNat ∧ (S : Int) < x) := by
  rw [← window_survivor low high S hlow hsq x hx1 hx2,
    crossBase_getD low high (by omega) basePrimes
      (fun bp hbp => by have := ((hmem bp).1 hbp).1; omega) _
      (by rw [List.length_replicate]; omega),
    crossBase_getD low high (by omega) (primesUpTo S)
      (fun bp hbp => by have := ((mem_primesUpTo S bp).1 hbp).1; omega) _
      (by rw [List.length_replicate]; omega)]
  have : ∀ bp : Int, bp ∈ basePrimes ↔ bp ∈ primesUpTo S := by
    intro bp
    rw [hmem, mem_primesUpTo]
  simp only [this]

theorem primesUpTo_four : primesUpTo 4 = [2, 3] := by decide

theorem primesUpTo_seven : primesUpTo 7 = [2, 3, 5, 7] := by decide

/-- On a cache that holds the first primes the checked run either returns what
the plain run returns or stops at the fallback read. -/
theorem NthPrimeChecked_cases (maxPrimeOf : Int → Int) (primes : List Int) (n : Int)
    (hprimes : IsFirstPrimes primes) :
    (∃ v, (NthPrime maxPrimeOf primes n).1 = some v ∧
        NthPrimeChecked maxPrimeOf primes n = .ok (v, (NthPrime maxPrimeOf primes n).2)) ∨
      ((NthPrime maxPrimeOf primes n).1 = none ∧
        NthPrimeChecked maxPrimeOf primes n = .error Fault.fallbackRead) := by
  have h := NthPrimeChecked_eq maxPrimeOf primes n (isFirstPrimes_startOf primes hprimes)
  cases hv : (NthPrime maxPrimeOf primes n).1 with
  | none =>
    rw [hv] at h
    exact Or.inr ⟨rfl, h⟩
  | some v =>
    rw [hv] at h
    exact Or.inl ⟨v, rfl, h⟩

/-! ## The result does not depend on the window width -/

theorem highOfWidth_segmentSize (maxPrime low : Int) :
    highOfWidth segmentSize maxPrime low = highOf maxPrime low := rfl

theorem segmentLoopWidth_segmentSize (n maxPrime : Int) (basePrimes : List Int) (fuel : Nat)
    (low : Int) (ps : List Int) :
    segmentLoopWidth segmentSize n maxPrime basePrimes fuel low ps =
      segmentLoop n maxPrime basePrimes fuel low ps := by
  induction fuel generalizing low ps with
  | zero => rfl
  | succ fuel ih =>
    rw [segmentLoopWidth, segmentLoop]
    split
    · simp only [highOfWidth_segmentSize]
      split
      · rfl
      · exact ih _ _
    · rfl

theorem sieveToWidth_segmentSize (maxPrime : Int) (primes : List Int) (n : Int) :
    sieveToWidth segmentSize maxPrime primes n = sieveTo maxPrime primes n := by
  unfold sieveToWidth sieveTo
  simp only [segmentLoopWidth_segmentSize]

theorem highOfWidth_eq (width maxPrime low : Int) :
    highOfWidth width maxPrime low = min (low + width - 1) maxPrime := by
  unfold highOfWidth
  split
  · next h => rw [min_eq_right (le_of_lt h)]
  · next h => rw [min_eq_left (by omega)]

theorem segmentLoopWidth_primes (width : Int) (hwidth : 1 ≤ width) (n maxPrime : Int) (s c : Nat)
    (hs : s ≤ c) (hsq : maxPrime < (s : Int) * s) (fuel : Nat) (low : Int) (ps : List Int)
    (hlow : 2 ≤ low) (hc : c ≤ s ∨ (c : Int) < low)
    (hps : ps = primesUpTo (max (c : Int) (min (low - 1) maxPrime)).toNat)
    (hfuel : maxPrime + 1 - low ≤ (fuel : Int)) :
    (∃ m, (segmentLoopWidth width n maxPrime (primesUpTo s) fuel low ps).2 = primesUpTo m) ∧
      ((segmentLoopWidth width n maxPrime (primesUpTo s) fuel low ps).1 = true →
        n < ((segmentLoopWidth width n maxPrime (primesUpTo s) fuel low ps).2.length : Int)) ∧
      ((segmentLoopWidth width n maxPrime (primesUpTo s) fuel low ps).1 = false →
        (segmentLoopWidth width n maxPrime (primesUpTo s) fuel low ps).2 =
          primesUpTo (max (c : Int) maxPrime).toNat) := by
  induction fuel generalizing low ps with
  | zero =>
    rw [segmentLoopWidth]
    have : min (low - 1) maxPrime = maxPrime := min_eq_right (by push_cast at hfuel; omega)
    rw [this] at hps
    exact ⟨⟨_, hps⟩, fun h => absurd h (by simp), fun _ => hps⟩
  | succ fuel ih =>
    rw [segmentLoopWidth]
    split
    · next hlm =>
      have hhigh := highOfWidth_eq width maxPrime low
      have hh1 : low ≤ highOfWidth width maxPrime low := by
        rw [hhigh]; exact le_min (by omega) hlm
      have hh2 : highOfWidth width maxPrime low ≤ maxPrime := by
        rw [hhigh]; exact min_le_right _ _
      have hmin : min (low - 1) maxPrime = low - 1 := min_eq_left (by omega)
      rw [hmin] at hps
      have hsurv : ∀ x : Int, low ≤ x → x ≤ highOfWidth width maxPrime low →
          ((crossBase low (highOfWidth width maxPrime low) (primesUpTo s)
            (List.replicate (highOfWidth width maxPrime low - low + 1).toNat true)).getD
              (x - low).toNat false = true ↔ (Nat.Prime x.toNat ∧ (c : Int) < x)) := by
        intro x hx1 hx2
        rw [window_survivor low (highOfWidth width maxPrime low) s hlow (by omega) x hx1 hx2]
        have : (s : Int) < x ↔ (c : Int) < x := by
          rcases hc with h | h
          · have : c = s := by omega
            rw [this]
          · constructor
            · intro _; omega
            · intro _; omega
        rw [this]
      have hap := appendLoop_primes n low (highOfWidth width maxPrime low) _ c hsurv
        (highOfWidth width maxPrime low - low + 1).toNat low ps (le_refl _) (by omega) hps
        (by omega)
      simp only []
      split
      · next primes1 heq =>
        rw [heq] at hap
        exact ⟨hap.1, fun _ => hap.2.1 rfl, fun h => absurd h (by simp)⟩
      · next primes1 heq =>
        rw [heq] at hap
        have hp1 := hap.2.2 rfl
        refine ih (low + width) primes1 (by omega) ?_ ?_ (by push_cast at hfuel; omega)
        · rcases hc with h | h
          · exact Or.inl h
          · exact Or.inr (by omega)
        · simp only [] at hp1
          rw [hp1, hhigh]
    · next hlm =>
      have : min (low - 1) maxPrime = maxPrime := min_eq_right (by omega)
      rw [this] at hps
      exact ⟨⟨_, hps⟩, fun h => absurd h (by simp), fun _ => hps⟩

theorem segmentLoopWidth_mem (width : Int) (hwidth : 1 ≤ width) (n maxPrime : Int)
    (basePrimes : List Int) (fuel : Nat) (low : Int) (ps : List Int) (x : Int)
    (hx : x ∈ (segmentLoopWidth width n maxPrime basePrimes fuel low ps).2) :
    x ∈ ps ∨ (low ≤ x ∧ x ≤ maxPrime) := by
  induction fuel generalizing low ps with
  | zero => rw [segmentLoopWidth] at hx; exact Or.inl hx
  | succ fuel ih =>
    rw [segmentLoopWidth] at hx
    split at hx
    · next hlm =>
      have hh2 : highOfWidth width maxPrime low ≤ maxPrime := by
        rw [highOfWidth_eq]; exact min_le_right _ _
      simp only [] at hx
      have hap := appendLoop_mem n low (highOfWidth width maxPrime low)
        (crossBase low (highOfWidth width maxPrime low) basePrimes
          (List.replicate (highOfWidth width maxPrime low - low + 1).toNat true))
        (highOfWidth width maxPrime low - low + 1).toNat low ps
      revert hx hap
      generalize appendLoop n low (highOfWidth width maxPrime low)
        (crossBase low (highOfWidth width maxPrime low) basePrimes
          (List.replicate (highOfWidth width maxPrime low - low + 1).toNat true))
        (highOfWidth width maxPrime low - low + 1).toNat low ps = r
      obtain ⟨flag, primes1⟩ := r
      have hstep : ∀ y : Int, (y ∈ ps ∨ (low ≤ y ∧ y ≤ highOfWidth width maxPrime low ∧
          (crossBase low (highOfWidth width maxPrime low) basePrimes
            (List.replicate (highOfWidth width maxPrime low - low + 1).toNat true)).getD
              (y - low).toNat false = true)) → y ∈ ps ∨ (low ≤ y ∧ y ≤ maxPrime) := by
        rintro y (h | h)
        · exact Or.inl h
        · exact Or.inr ⟨h.1, by omega⟩
      cases flag
      · intro hx hap
        rcases ih (low + width) primes1 hx with h | h
        · exact hstep x (hap x h)
        · exact Or.inr ⟨by omega, h.2⟩
      · intro hx hap
        exact hstep x (hap x hx)
    · exact Or.inl hx

theorem primesUpTo_extends (a b : Nat) (h : a ≤ b) : primesUpTo a <+: primesUpTo b := by
  induction b with
  | zero =>
    have : a = 0 := by omega
    rw [this]
  | succ b ih =>
    rcases Nat.lt_or_ge a (b + 1) with hlt | hge
    · rw [primesUpTo_succ]
      exact (ih (by omega)).trans (List.prefix_append _ _)
    · have : a = b + 1 := by omega
      rw [this]

/-- From the empty cache, with a bound at least the `n`-th prime and windows of
any width, the segmented sieve leaves a cache that is an initial part of the
plain sieve up to the bound, with the `n`-th prime at index `n` of both. -/
theorem sieveToWidth_empty (width : Int) (hwidth : 1 ≤ width) (maxPrime n : Int) (hn : 1 ≤ n)
    (hbound : (Nat.nth Nat.Prime n.toNat : Int) ≤ maxPrime) :
    sieveToWidth width maxPrime [] n <+: generatePrimesUpTo maxPrime ∧
      (sieveToWidth width maxPrime [] n)[n.toNat]? = some (Nat.nth Nat.Prime n.toNat : Int) ∧
      (generatePrimesUpTo maxPrime)[n.toNat]? = some (Nat.nth Nat.Prime n.toNat : Int) := by
  have h3 := three_le_nth_prime n.toNat (by omega)
  have hB3 : 3 ≤ maxPrime.toNat := by omega
  have hsq : maxPrime < ((floorSqrt maxPrime.toNat + 1 : Nat) : Int) *
      ((floorSqrt maxPrime.toNat + 1 : Nat) : Int) := by
    have h := lt_floorSqrt_succ_sq maxPrime.toNat
    have h2 : (maxPrime.toNat : Int) <
        ((floorSqrt maxPrime.toNat + 1 : Nat) : Int) * ((floorSqrt maxPrime.toNat + 1 : Nat) : Int) := by
      exact_mod_cast h
    omega
  have hsle := floorSqrt_succ_le maxPrime.toNat (by omega)
  have hbase : generatePrimesUpTo ((floorSqrt maxPrime.toNat : Int) + 1) =
      primesUpTo (floorSqrt maxPrime.toNat + 1) := by
    rw [generatePrimesUpTo_eq]
    congr 1
  have hmerge : mergeBase (primesUpTo (floorSqrt maxPrime.toNat + 1)) [] =
      primesUpTo (floorSqrt maxPrime.toNat + 1) := by
    have := mergeBase_primesUpTo (floorSqrt maxPrime.toNat + 1) 0
    rw [primesUpTo_zero] at this
    rw [this]
    congr 1
  have hsieve : sieveToWidth width maxPrime [] n =
      (segmentLoopWidth width n maxPrime (primesUpTo (floorSqrt maxPrime.toNat + 1))
        (maxPrime + 1 - 2).toNat 2 (primesUpTo (floorSqrt maxPrime.toNat + 1))).2 := by
    unfold sieveToWidth
    simp only []
    rw [hbase, hmerge]
    rfl
  have hloop := segmentLoopWidth_primes width hwidth n maxPrime (floorSqrt maxPrime.toNat + 1)
    (floorSqrt maxPrime.toNat + 1) (le_refl _) hsq (maxPrime + 1 - 2).toNat 2
    (primesUpTo (floorSqrt maxPrime.toNat + 1)) (le_refl _) (Or.inl (le_refl _))
    (by
      congr 1
      have h1 : min ((2 : Int) - 1) maxPrime = 1 := min_eq_left (by omega)
      rw [h1, max_eq_left (by omega), Int.toNat_ofNat])
    (by omega)
  have hmemle : ∀ x ∈ sieveToWidth width maxPrime [] n, x ≤ maxPrime := by
    intro x hx
    rw [hsieve] at hx
    rcases segmentLoopWidth_mem width hwidth _ _ _ _ _ _ x hx with h | h
    · have := ((mem_primesUpTo _ x).1 h).2.1
      omega
    · exact h.2
  obtain ⟨⟨m1, hm1⟩, htrue, hfalse⟩ := hloop
  rw [← hsieve] at hm1 htrue hfalse
  have hgen : (generatePrimesUpTo maxPrime)[n.toNat]? =
      some (Nat.nth Nat.Prime n.toNat : Int) := by
    rw [generatePrimesUpTo_eq]
    exact primesUpTo_isFirstPrimes _ _ (lt_length_primesUpTo _ _ (by omega))
  refine ⟨?_, ?_, hgen⟩
  · rw [hm1, generatePrimesUpTo_eq,
      primesUpTo_min_of_le m1 maxPrime (by rw [← hm1]; exact hmemle)]
    exact primesUpTo_extends _ _ (min_le_right _ _)
  · have hlt : n.toNat < (sieveToWidth width maxPrime [] n).length := by
      cases hflag : (segmentLoopWidth width n maxPrime (primesUpTo (floorSqrt maxPrime.toNat + 1))
          (maxPrime + 1 - 2).toNat 2 (primesUpTo (floorSqrt maxPrime.toNat + 1))).1 with
      | true =>
        have := htrue hflag
        omega
      | false =>
        rw [hfalse hflag]
        apply lt_length_primesUpTo
        have := le_max_right ((floorSqrt maxPrime.toNat + 1 : Nat) : Int) maxPrime
        omega
    rw [hm1] at hlt ⊢
    exact primesUpTo_isFirstPrimes m1 n.toNat hlt

/-! ## The claims -/

/-- C1: in every oracle state reachable from a fresh oracle, `NthPrime n` with
`n ≥ 0` returns the `n`-th prime counted from index 0 (0 gives 2, 1 gives 3, 19
gives 71), provided that, when the call has to sieve, its bound `maxPrime` is at
least that prime. -/
theorem NthPrime_returns_nth_prime (maxPrimeOf : Int → Int) (primes : List Int) (n : Int)
    (hreach : Reachable maxPrimeOf primes) (h0 : 0 ≤ n)
    (hbound : 1 ≤ n → (primes.length : Int) ≤ n →
      (Nat.nth Nat.Prime n.toNat : Int) ≤ maxPrimeOf n) :
    (NthPrime maxPrimeOf primes n).1 = some (Nat.nth Nat.Prime n.toNat : Int) ∧
      Nat.nth Nat.Prime 0 = 2 ∧ Nat.nth Nat.Prime 1 = 3 ∧ Nat.nth Nat.Prime 19 = 71 := by
  obtain ⟨m, rfl⟩ := reachable_primesUpTo maxPrimeOf primes hreach
  exact ⟨NthPrime_fst_primesUpTo maxPrimeOf m n h0 hbound, Nat.nth_prime_zero_eq_two,
    nth_prime_one, nth_prime_nineteen⟩

theorem NthPrime_returns_nth_prime_witness :
    Reachable (fun _ => 11) [2, 3, 5] ∧ (0 : Int) ≤ 4 ∧
      (Nat.nth Nat.Prime (4 : Int).toNat : Int) ≤ 11 ∧
      ((NthPrime (fun _ => 11) [2, 3, 5] 4).1 = some (Nat.nth Nat.Prime (4 : Int).toNat : Int) ∧
        Nat.nth Nat.Prime 0 = 2 ∧ Nat.nth Nat.Prime 1 = 3 ∧ Nat.nth Nat.Prime 19 = 71) :=
  have hb : (Nat.nth Nat.Prime (4 : Int).toNat : Int) ≤ 11 := by
    have h : (4 : Int).toNat = 4 := rfl
    rw [h, nth_prime_four]
    decide
  ⟨reachable_235, by decide, hb,
    NthPrime_returns_nth_prime (fun _ => 11) [2, 3, 5] 4 reachable_235 (by decide)
      (fun _ _ => hb)⟩

/-- C2: for a negative index `NthPrime` returns the sentinel `-1` and leaves the
cache exactly as it was, whatever the cache holds. -/
theorem NthPrime_negative (maxPrimeOf : Int → Int) (primes : List Int) (n : Int)
    (hn : n < 0) : NthPrime maxPrimeOf primes n = (some (-1), primes) := by
  simp [NthPrime, hn]

theorem NthPrime_negative_witness :
    (-3 : Int) < 0 ∧ NthPrime (fun _ => 11) [2, 3, 5] (-3) = (some (-1), [2, 3, 5]) :=
  ⟨by decide, NthPrime_negative (fun _ => 11) [2, 3, 5] (-3) (by decide)⟩

/-- C3: on every cache, empty or not, `NthPrime 0` returns 2 and leaves the cache
unchanged; on a fresh oracle the cache stays empty. -/
theorem NthPrime_zero (maxPrimeOf : Int → Int) (primes : List Int) :
    NthPrime maxPrimeOf primes 0 = (some 2, primes) ∧
      NthPrime maxPrimeOf [] 0 = (some 2, []) := by
  simp [NthPrime]

/-- C4: on a cache that holds the first `K` primes in order, a call with
`0 ≤ n < K` returns the entry `cache[n]` and leaves the cache unchanged. -/
theorem NthPrime_cache_hit (maxPrimeOf : Int → Int) (primes : List Int) (n : Int)
    (hprimes : IsFirstPrimes primes) (h0 : 0 ≤ n) (hn : n < (primes.length : Int)) :
    ∃ v, primes[n.toNat]? = some v ∧ NthPrime maxPrimeOf primes n = (some v, primes) := by
  have hlt : n.toNat < primes.length := by omega
  refine ⟨primes[n.toNat], List.getElem?_eq_getElem hlt, ?_⟩
  unfold NthPrime
  rw [if_neg (by omega)]
  by_cases hz : n = 0
  · subst hz
    have h2 := hprimes 0 (by simpa using hlt)
    rw [List.getElem?_eq_getElem (by simpa using hlt), Nat.nth_prime_zero_eq_two] at h2
    have h3 : primes[0] = 2 := by simpa using h2
    simp [h3]
  · rw [if_neg hz, if_pos hn, List.getElem?_eq_getElem hlt]

theorem NthPrime_cache_hit_witness :
    IsFirstPrimes [2, 3, 5] ∧ (0 : Int) ≤ 2 ∧ (2 : Int) < (([2, 3, 5] : List Int).length : Int) ∧
      ∃ v, ([2, 3, 5] : List Int)[(2 : Int).toNat]? = some v ∧
        NthPrime (fun _ => 11) [2, 3, 5] 2 = (some v, [2, 3, 5]) :=
  ⟨isFirstPrimes_235, by decide, by decide,
    NthPrime_cache_hit (fun _ => 11) [2, 3, 5] 2 isFirstPrimes_235 (by decide) (by decide)⟩

/-- C5: in every oracle state reachable from a fresh oracle by `NthPrime` calls
the cache is the list of the first `K` primes for some `K`: entry `i` is the
`i`-th prime for every valid `i`, the entries increase strictly, none is
repeated, and the first one, if any, is 2. -/
theorem reachable_cache_first_primes (maxPrimeOf : Int → Int) (primes : List Int)
    (hreach : Reachable maxPrimeOf primes) :
    IsFirstPrimes primes ∧ primes.Pairwise (fun a b => a < b) ∧ primes.Nodup ∧
      (primes.head? = none ∨ primes.head? = some 2) := by
  obtain ⟨m, rfl⟩ := reachable_primesUpTo maxPrimeOf primes hreach
  have hfirst := primesUpTo_isFirstPrimes m
  have hpw := primesUpTo_pairwise m
  refine ⟨hfirst, hpw, hpw.imp (fun h => ne_of_lt h), ?_⟩
  rcases Nat.eq_zero_or_pos (primesUpTo m).length with h0 | hpos
  · left
    rw [List.length_eq_zero.1 h0]; rfl
  · right
    have := hfirst 0 hpos
    rw [Nat.nth_prime_zero_eq_two] at this
    rw [List.head?_eq_getElem?, this]
    rfl

theorem reachable_cache_first_primes_witness :
    Reachable (fun _ => 11) [2, 3, 5] ∧
      (IsFirstPrimes [2, 3, 5] ∧ ([2, 3, 5] : List Int).Pairwise (fun a b => a < b) ∧
        ([2, 3, 5] : List Int).Nodup ∧
        (([2, 3, 5] : List Int).head? = none ∨ ([2, 3, 5] : List Int).head? = some 2)) :=
  ⟨reachable_235, reachable_cache_first_primes (fun _ => 11) [2, 3, 5] reachable_235⟩

/-- C6: when a call of `NthPrime` returns, the cache before the call is a prefix
of the cache after it: entries are only appended, no earlier entry is changed or
removed, and the length does not decrease. This holds for every index and every
cache. -/
theorem NthPrime_cache_monotone (maxPrimeOf : Int → Int) (primes primes1 : List Int)
    (n v : Int) (hcall : NthPrime maxPrimeOf primes n = (some v, primes1)) :
    primes <+: primes1 ∧ primes.length ≤ primes1.length ∧
      primes1.take primes.length = primes := by
  have hp := NthPrime_snd_extends maxPrimeOf primes n
  rw [hcall] at hp
  exact ⟨hp, hp.length_le, List.prefix_iff_eq_take.1 hp |>.symm⟩

theorem NthPrime_cache_monotone_witness :
    NthPrime (fun _ => 11) [2, 3, 5] 4 = (some 11, [2, 3, 5, 7, 11]) ∧
      (([2, 3, 5] : List Int) <+: [2, 3, 5, 7, 11] ∧
        ([2, 3, 5] : List Int).length ≤ ([2, 3, 5, 7, 11] : List Int).length ∧
        ([2, 3, 5, 7, 11] : List Int).take ([2, 3, 5] : List Int).length = [2, 3, 5]) :=
  ⟨by decide, NthPrime_cache_monotone (fun _ => 11) [2, 3, 5] [2, 3, 5, 7, 11] 4 11 (by decide)⟩

/-- C7: when `NthPrime n` with `n ≥ 0` returns a value, an immediately following
`NthPrime n` on the same oracle returns the same value and leaves the cache as
the first call left it; the second call is answered without sieving (the index
is 0 or lies inside the cache). This holds on every cache. -/
theorem NthPrime_idempotent (maxPrimeOf : Int → Int) (primes primes1 : List Int)
    (n v : Int) (h0 : 0 ≤ n) (hcall : NthPrime maxPrimeOf primes n = (some v, primes1)) :
    NthPrime maxPrimeOf primes1 n = (some v, primes1) ∧
      (n = 0 ∨ n < (primes1.length : Int)) := by
  unfold NthPrime at hcall ⊢
  rw [if_neg (by omega)] at hcall ⊢
  by_cases hz : n = 0
  · rw [if_pos hz] at hcall ⊢
    simp only [Prod.mk.injEq] at hcall
    exact ⟨by rw [hcall.1], Or.inl hz⟩
  · rw [if_neg hz] at hcall ⊢
    have hread : primes1[n.toNat]? = some v := by
      split at hcall
      · simp only [Prod.mk.injEq] at hcall
        rw [← hcall.2]; exact hcall.1
      · simp only [Prod.mk.injEq] at hcall
        rw [← hcall.2]; exact hcall.1
    have hlt : n.toNat < primes1.length := getElem?_some_lt primes1 n.toNat v hread
    have hn : n < (primes1.length : Int) := by omega
    rw [if_pos hn, hread]
    exact ⟨rfl, Or.inr hn⟩

theorem NthPrime_idempotent_witness :
    (0 : Int) ≤ 4 ∧ NthPrime (fun _ => 11) [2, 3, 5] 4 = (some 11, [2, 3, 5, 7, 11]) ∧
      (NthPrime (fun _ => 11) [2, 3, 5, 7, 11] 4 = (some 11, [2, 3, 5, 7, 11]) ∧
        ((4 : Int) = 0 ∨ (4 : Int) < (([2, 3, 5, 7, 11] : List Int).length : Int))) :=
  ⟨by decide, by decide,
    NthPrime_idempotent (fun _ => 11) [2, 3, 5] [2, 3, 5, 7, 11] 4 11 (by decide) (by decide)⟩

/-- C8: in every reachable oracle state and for `n ≥ 0`, `NthPrime n` followed by
`NthPrime (n + 1)` on the same oracle returns values `a` and `b` with `a < b`,
provided that the bound of each of the two calls that has to sieve is at least
the prime it is asked for. -/
theorem NthPrime_strictly_increasing (maxPrimeOf : Int → Int) (primes : List Int) (n : Int)
    (hreach : Reachable maxPrimeOf primes) (h0 : 0 ≤ n)
    (hbound1 : 1 ≤ n → (primes.length : Int) ≤ n →
      (Nat.nth Nat.Prime n.toNat : Int) ≤ maxPrimeOf n)
    (hbound2 : ((NthPrime maxPrimeOf primes n).2.length : Int) ≤ n + 1 →
      (Nat.nth Nat.Prime (n + 1).toNat : Int) ≤ maxPrimeOf (n + 1)) :
    ∃ a b : Int, (NthPrime maxPrimeOf primes n).1 = some a ∧
      (NthPrime maxPrimeOf (NthPrime maxPrimeOf primes n).2 (n + 1)).1 = some b ∧ a < b := by
  obtain ⟨m, rfl⟩ := reachable_primesUpTo maxPrimeOf primes hreach
  obtain ⟨m1, hm1⟩ := NthPrime_snd_primesUpTo maxPrimeOf m n
  have h1 := NthPrime_fst_primesUpTo maxPrimeOf m n h0 hbound1
  rw [hm1] at hbound2 ⊢
  have h2 := NthPrime_fst_primesUpTo maxPrimeOf m1 (n + 1) (by omega) (fun _ => hbound2)
  refine ⟨_, _, h1, h2, ?_⟩
  have hidx : (n + 1).toNat = n.toNat + 1 := by omega
  rw [hidx]
  exact_mod_cast Nat.nth_strictMono Nat.infinite_setOf_prime (Nat.lt_succ_self n.toNat)

theorem NthPrime_strictly_increasing_witness :
    Reachable (fun _ => 11) [2, 3, 5] ∧ (0 : Int) ≤ 3 ∧
      (Nat.nth Nat.Prime (3 : Int).toNat : Int) ≤ 11 ∧
      (Nat.nth Nat.Prime ((3 : Int) + 1).toNat : Int) ≤ 11 ∧
      ∃ a b : Int, (NthPrime (fun _ => 11) [2, 3, 5] 3).1 = some a ∧
        (NthPrime (fun _ => 11) (NthPrime (fun _ => 11) [2, 3, 5] 3).2 (3 + 1)).1 = some b ∧
        a < b :=
  have hb1 : (Nat.nth Nat.Prime (3 : Int).toNat : Int) ≤ 11 := by
    have h : (3 : Int).toNat = 3 := rfl
    rw [h, nth_prime_three]
    decide
  have hb2 : (Nat.nth Nat.Prime ((3 : Int) + 1).toNat : Int) ≤ 11 := by
    have h : ((3 : Int) + 1).toNat = 4 := rfl
    rw [h, nth_prime_four]
    decide
  ⟨reachable_235, by decide, hb1, hb2,
    NthPrime_strictly_increasing (fun _ => 11) [2, 3, 5] 3 reachable_235 (by decide)
      (fun _ _ => hb1) (fun _ => hb2)⟩

/-- C9: for every limit `L`, `generatePrimesUpTo L` holds exactly the primes `p`
with `2 ≤ p ≤ L`, in strictly increasing order and each once; it is empty exactly
when `L < 2`, and `generatePrimesUpTo 4 = [2, 3]`. -/
theorem generatePrimesUpTo_spec (limit : Int) :
    (∀ p : Int, p ∈ generatePrimesUpTo limit ↔ (2 ≤ p ∧ p ≤ limit ∧ Nat.Prime p.toNat)) ∧
      (generatePrimesUpTo limit).Pairwise (fun a b => a < b) ∧
      (generatePrimesUpTo limit).Nodup ∧
      (generatePrimesUpTo limit = [] ↔ limit < 2) ∧
      generatePrimesUpTo 4 = [2, 3] := by
  have hmem : ∀ p : Int, p ∈ generatePrimesUpTo limit ↔
      (2 ≤ p ∧ p ≤ limit ∧ Nat.Prime p.toNat) := by
    intro p
    rw [generatePrimesUpTo_eq, mem_primesUpTo]
    constructor
    · rintro ⟨h2, hle, hp⟩; exact ⟨h2, by omega, hp⟩
    · rintro ⟨h2, hle, hp⟩; exact ⟨h2, by omega, hp⟩
  have hpw : (generatePrimesUpTo limit).Pairwise (fun a b => a < b) := by
    rw [generatePrimesUpTo_eq]; exact primesUpTo_pairwise _
  refine ⟨hmem, hpw, hpw.imp (fun h => ne_of_lt h), ?_, by decide⟩
  constructor
  · intro hnil
    by_contra hge
    have h2 : (2 : Int) ∈ generatePrimesUpTo limit :=
      (hmem 2).2 ⟨le_refl 2, by omega, Nat.prime_two⟩
    rw [hnil] at h2
    exact absurd h2 (List.not_mem_nil 2)
  · intro hlt
    unfold generatePrimesUpTo
    rw [if_pos hlt]

/-- C10, as the code has it: on a reachable cache of length at most `n`, with
`n ≥ 1`, a call `NthPrime n` that returns leaves exactly `n + 1` entries in the
cache and returns the last of them, provided that the base sieve yields at most
`n` primes. The length of the cache is tested only after an append of the window
scan, not after the merge of the base primes. -/
theorem NthPrime_stops_at_n (maxPrimeOf : Int → Int) (primes primes1 : List Int) (n v : Int)
    (hreach : Reachable maxPrimeOf primes) (hn : 1 ≤ n) (hlen : (primes.length : Int) ≤ n)
    (hbase : ((generatePrimesUpTo ((floorSqrt (maxPrimeOf n).toNat : Int) + 1)).length : Int) ≤ n)
    (hcall : NthPrime maxPrimeOf primes n = (some v, primes1)) :
    (primes1.length : Int) = n + 1 ∧ lastOf primes1 = v ∧ primes1[n.toNat]? = some v := by
  obtain ⟨m, rfl⟩ := reachable_primesUpTo maxPrimeOf primes hreach
  unfold NthPrime at hcall
  rw [if_neg (by omega), if_neg (by omega), if_neg (by omega)] at hcall
  simp only [Prod.mk.injEq] at hcall
  obtain ⟨hv, hp1⟩ := hcall
  rw [hp1] at hv
  have hmerge : ((mergeBase (generatePrimesUpTo ((floorSqrt (maxPrimeOf n).toNat : Int) + 1))
      (primesUpTo m)).length : Int) ≤ n := by
    rw [generatePrimesUpTo_eq] at hbase ⊢
    exact mergeBase_primesUpTo_length _ m n hbase hlen
  have hloop := segmentLoop_length n (maxPrimeOf n)
    (generatePrimesUpTo ((floorSqrt (maxPrimeOf n).toNat : Int) + 1))
    (maxPrimeOf n + 1 - startOf (primesUpTo m)).toNat (startOf (primesUpTo m)) _ hmerge
  have hs : (segmentLoop n (maxPrimeOf n)
      (generatePrimesUpTo ((floorSqrt (maxPrimeOf n).toNat : Int) + 1))
      (maxPrimeOf n + 1 - startOf (primesUpTo m)).toNat (startOf (primesUpTo m))
      (mergeBase (generatePrimesUpTo ((floorSqrt (maxPrimeOf n).toNat : Int) + 1))
        (primesUpTo m))).2 = primes1 := hp1
  rw [hs] at hloop
  have hlt := getElem?_some_lt primes1 n.toNat v hv
  cases hflag : (segmentLoop n (maxPrimeOf n)
      (generatePrimesUpTo ((floorSqrt (maxPrimeOf n).toNat : Int) + 1))
      (maxPrimeOf n + 1 - startOf (primesUpTo m)).toNat (startOf (primesUpTo m))
      (mergeBase (generatePrimesUpTo ((floorSqrt (maxPrimeOf n).toNat : Int) + 1))
        (primesUpTo m))).1 with
  | false =>
    have := hloop.2 hflag
    omega
  | true =>
    obtain ⟨h1, h2⟩ := hloop.1 hflag
    rw [hv] at h2
    exact ⟨h1, (Option.some.inj h2).symm, hv⟩

theorem NthPrime_stops_at_n_witness :
    Reachable (fun _ => 11) [2, 3, 5] ∧ (1 : Int) ≤ 4 ∧
      (([2, 3, 5] : List Int).length : Int) ≤ 4 ∧
      ((generatePrimesUpTo ((floorSqrt ((fun _ => 11) (4 : Int) : Int).toNat : Int) + 1)).length
        : Int) ≤ 4 ∧
      NthPrime (fun _ => 11) [2, 3, 5] 4 = (some 11, [2, 3, 5, 7, 11]) ∧
      ((([2, 3, 5, 7, 11] : List Int).length : Int) = 4 + 1 ∧
        lastOf [2, 3, 5, 7, 11] = 11 ∧
        ([2, 3, 5, 7, 11] : List Int)[(4 : Int).toNat]? = some 11) :=
  ⟨reachable_235, by decide, by decide, by decide, by decide,
    NthPrime_stops_at_n (fun _ => 11) [2, 3, 5] [2, 3, 5, 7, 11] 4 11 reachable_235
      (by decide) (by decide) (by decide) (by decide)⟩

/-- C10 as stated fails on a fresh oracle at `n = 1`, for which the source
computes the bound `int64(2*(ln 2 + ln ln 2) + 1) + 10 = 11`: the base primes 2
and 3 are merged first, the window scan still appends 5 before the length is
tested, and the call returns 3 from a cache of three entries. -/
theorem NthPrime_stops_at_n_counterexample :
    Reachable (fun _ => 11) [] ∧ (1 : Int) ≤ 1 ∧ (([] : List Int).length : Int) ≤ 1 ∧
      NthPrime (fun _ => 11) [] 1 = (some 3, [2, 3, 5]) ∧
      ¬ ((([2, 3, 5] : List Int).length : Int) = 1 + 1) ∧ ¬ (lastOf [2, 3, 5] = 3) :=
  ⟨Reachable.fresh, by decide, by decide, by decide, by decide, by decide⟩

/-- C11: with the bound `maxPrime` as given, on a cache that holds the first `K`
primes with `K ≤ n` and for `n ≥ 1`, the call stops at the out-of-range read of
the final fallback exactly when the `n`-th prime is greater than the bound (the
cache then holds at most `n` entries), and returns a value exactly when the
`n`-th prime is at most the bound. -/
theorem NthPrime_fallback_read (maxPrimeOf : Int → Int) (primes : List Int) (n : Int)
    (hprimes : IsFirstPrimes primes) (hn : 1 ≤ n) (hlen : (primes.length : Int) ≤ n) :
    (NthPrimeChecked maxPrimeOf primes n = .error Fault.fallbackRead ↔
        maxPrimeOf n < (Nat.nth Nat.Prime n.toNat : Int)) ∧
      ((∃ v c, NthPrimeChecked maxPrimeOf primes n = .ok (v, c)) ↔
        (Nat.nth Nat.Prime n.toNat : Int) ≤ maxPrimeOf n) ∧
      ((NthPrime maxPrimeOf primes n).1 = none ↔
        maxPrimeOf n < (Nat.nth Nat.Prime n.toNat : Int)) ∧
      ((∃ v, (NthPrime maxPrimeOf primes n).1 = some v) ↔
        (Nat.nth Nat.Prime n.toNat : Int) ≤ maxPrimeOf n) ∧
      (maxPrimeOf n < (Nat.nth Nat.Prime n.toNat : Int) →
        ((NthPrime maxPrimeOf primes n).2.length : Int) ≤ n) := by
  obtain ⟨hsome, hnone⟩ := NthPrime_value_iff maxPrimeOf primes n hprimes hn hlen
  have hchk := NthPrimeChecked_eq maxPrimeOf primes n (isFirstPrimes_startOf primes hprimes)
  rcases le_or_lt (Nat.nth Nat.Prime n.toNat : Int) (maxPrimeOf n) with hb | hb
  · have h1 := hsome hb
    rw [h1] at hchk
    simp only [] at hchk
    refine ⟨?_, ?_, ?_, ?_, fun h => absurd h (by omega)⟩
    · rw [hchk]
      constructor
      · intro h; cases h
      · intro h; omega
    · exact ⟨fun _ => hb, fun _ => ⟨_, _, hchk⟩⟩
    · rw [h1]
      constructor
      · intro h; cases h
      · intro h; omega
    · exact ⟨fun _ => hb, fun _ => ⟨_, h1⟩⟩
  · obtain ⟨h1, h2⟩ := hnone hb
    rw [h1] at hchk
    simp only [] at hchk
    refine ⟨?_, ?_, ?_, ?_, fun _ => h2⟩
    · exact ⟨fun _ => hb, fun _ => hchk⟩
    · rw [hchk]
      constructor
      · rintro ⟨v, c, h⟩; cases h
      · intro h; omega
    · exact ⟨fun _ => hb, fun _ => h1⟩
    · rw [h1]
      constructor
      · rintro ⟨v, h⟩; cases h
      · intro h; omega

theorem NthPrime_fallback_read_witness :
    IsFirstPrimes [2, 3, 5] ∧ (1 : Int) ≤ 4 ∧ (([2, 3, 5] : List Int).length : Int) ≤ 4 ∧
      NthPrimeChecked (fun _ => 10) [2, 3, 5] 4 = .error Fault.fallbackRead ∧
      ((NthPrimeChecked (fun _ => 10) [2, 3, 5] 4 = .error Fault.fallbackRead ↔
          (fun _ => 10) (4 : Int) < (Nat.nth Nat.Prime (4 : Int).toNat : Int)) ∧
        ((∃ v c, NthPrimeChecked (fun _ => 10) [2, 3, 5] 4 = .ok (v, c)) ↔
          (Nat.nth Nat.Prime (4 : Int).toNat : Int) ≤ (fun _ => 10) (4 : Int)) ∧
        ((NthPrime (fun _ => 10) [2, 3, 5] 4).1 = none ↔
          (fun _ => 10) (4 : Int) < (Nat.nth Nat.Prime (4 : Int).toNat : Int)) ∧
        ((∃ v, (NthPrime (fun _ => 10) [2, 3, 5] 4).1 = some v) ↔
          (Nat.nth Nat.Prime (4 : Int).toNat : Int) ≤ (fun _ => 10) (4 : Int)) ∧
        ((fun _ => 10) (4 : Int) < (Nat.nth Nat.Prime (4 : Int).toNat : Int) →
          ((NthPrime (fun _ => 10) [2, 3, 5] 4).2.length : Int) ≤ 4)) :=
  ⟨isFirstPrimes_235, by decide, by decide, by rfl,
    NthPrime_fallback_read (fun _ => 10) [2, 3, 5] 4 isFirstPrimes_235 (by decide) (by decide)⟩

/-- C12: for `1 ≤ n ≤ 5` the bound of the source, evaluated in exact real
arithmetic, is at least the `n`-th prime (3, 5, 7, 11, 13), so that a call with
that bound returns the `n`-th prime in every reachable state. -/
theorem exactBound_covers_small_indices (n B : Int) (h1 : 1 ≤ n) (h5 : n ≤ 5)
    (hB : IsExactBound n B) :
    (Nat.nth Nat.Prime n.toNat : Int) ≤ B ∧
      (∀ (maxPrimeOf : Int → Int) (primes : List Int), Reachable maxPrimeOf primes →
        maxPrimeOf n = B →
        (NthPrime maxPrimeOf primes n).1 = some (Nat.nth Nat.Prime n.toNat : Int)) ∧
      Nat.nth Nat.Prime 1 = 3 ∧ Nat.nth Nat.Prime 2 = 5 ∧ Nat.nth Nat.Prime 3 = 7 ∧
      Nat.nth Nat.Prime 4 = 11 ∧ Nat.nth Nat.Prime 5 = 13 := by
  have hle := nth_prime_le_exactBound n B h1 h5 hB
  refine ⟨hle, ?_, nth_prime_one, nth_prime_two, nth_prime_three, nth_prime_four,
    nth_prime_five⟩
  intro maxPrimeOf primes hreach hest
  obtain ⟨m, rfl⟩ := reachable_primesUpTo maxPrimeOf primes hreach
  exact NthPrime_fst_primesUpTo maxPrimeOf m n (by omega) (fun _ _ => by rw [hest]; exact hle)

theorem exactBound_covers_small_indices_witness :
    (1 : Int) ≤ 1 ∧ (1 : Int) ≤ 5 ∧ IsExactBound 1 11 ∧
      ((Nat.nth Nat.Prime (1 : Int).toNat : Int) ≤ 11 ∧
        (∀ (maxPrimeOf : Int → Int) (primes : List Int), Reachable maxPrimeOf primes →
          maxPrimeOf 1 = 11 →
          (NthPrime maxPrimeOf primes 1).1 = some (Nat.nth Nat.Prime (1 : Int).toNat : Int)) ∧
        Nat.nth Nat.Prime 1 = 3 ∧ Nat.nth Nat.Prime 2 = 5 ∧ Nat.nth Nat.Prime 3 = 7 ∧
        Nat.nth Nat.Prime 4 = 11 ∧ Nat.nth Nat.Prime 5 = 13) :=
  ⟨by decide, by decide, isExactBound_one,
    exactBound_covers_small_indices 1 11 (by decide) (by decide) isExactBound_one⟩

/-- C13, as the code has it: in every reachable oracle state a value returned
for an index `n ≥ 0` is a prime number, namely the `n`-th prime. For a negative
index the guard of `NthPrime` returns the sentinel `-1`. -/
theorem NthPrime_value_is_prime (maxPrimeOf : Int → Int) (primes : List Int) (n v : Int)
    (hreach : Reachable maxPrimeOf primes) (h0 : 0 ≤ n)
    (hv : (NthPrime maxPrimeOf primes n).1 = some v) :
    ∃ p : Nat, Nat.Prime p ∧ v = (p : Int) ∧ p = Nat.nth Nat.Prime n.toNat := by
  obtain ⟨m, rfl⟩ := reachable_primesUpTo maxPrimeOf primes hreach
  exact ⟨Nat.nth Nat.Prime n.toNat, Nat.nth_mem_of_infinite Nat.infinite_setOf_prime _,
    NthPrime_value_prime maxPrimeOf m n v h0 hv, rfl⟩

theorem NthPrime_value_is_prime_witness :
    Reachable (fun _ => 11) [2, 3, 5] ∧ (0 : Int) ≤ 4 ∧
      (NthPrime (fun _ => 11) [2, 3, 5] 4).1 = some 11 ∧
      ∃ p : Nat, Nat.Prime p ∧ (11 : Int) = (p : Int) ∧ p = Nat.nth Nat.Prime (4 : Int).toNat :=
  ⟨reachable_235, by decide, by decide,
    NthPrime_value_is_prime (fun _ => 11) [2, 3, 5] 4 11 reachable_235 (by decide) (by decide)⟩

/-- C13 as stated fails at every negative index: on a fresh oracle
`NthPrime (-3)` returns `-1`, which is not a prime number. -/
theorem NthPrime_value_is_prime_counterexample :
    Reachable (fun _ => 11) [] ∧ (NthPrime (fun _ => 11) [] (-3)).1 = some (-1) ∧
      ¬ ∃ p : Nat, Nat.Prime p ∧ (-1 : Int) = (p : Int) :=
  ⟨Reachable.fresh, by decide, by
    rintro ⟨p, -, hp⟩
    omega⟩

/-- C14: for `low ≥ 1` and `bp ≥ 1` the start value `((low + bp - 1) / bp) * bp`
is the smallest multiple of `bp` that is at least `low`: it is divisible by `bp`,
it is at least `low`, it is below `low + bp`, and no multiple of `bp` from `low`
on is smaller. -/
theorem startIdx_smallest_multiple (low bp : Int) (hlow : 1 ≤ low) (hbp : 1 ≤ bp) :
    bp ∣ startIdx low bp ∧ low ≤ startIdx low bp ∧ startIdx low bp < low + bp ∧
      ∀ m : Int, bp ∣ m → low ≤ m → startIdx low bp ≤ m := by
  obtain ⟨h1, h2, h3⟩ := startIdx_spec low bp hlow (by omega)
  exact ⟨h1, h2, h3, fun m hdvd hm => startIdx_le_of_dvd low bp m hlow (by omega) hdvd hm⟩

theorem startIdx_smallest_multiple_witness :
    (1 : Int) ≤ 7 ∧ (1 : Int) ≤ 3 ∧ startIdx 7 3 = 9 ∧
      ((3 : Int) ∣ startIdx 7 3 ∧ (7 : Int) ≤ startIdx 7 3 ∧ startIdx 7 3 < 7 + 3 ∧
        ∀ m : Int, (3 : Int) ∣ m → 7 ≤ m → startIdx 7 3 ≤ m) :=
  ⟨by decide, by decide, by decide,
    startIdx_smallest_multiple 7 3 (by decide) (by decide)⟩

/-- C15: on a cache that holds the first `K` primes, and for a base-prime list
that holds all primes up to a limit `S` in increasing order, the merge loop
leaves a cache that holds the first `max K pi(S)` primes: it is the old cache
followed by the base primes greater than its last entry, each once and in
order. -/
theorem mergeBase_first_primes (basePrimes primes : List Int) (S : Int)
    (hprimes : IsFirstPrimes primes) (hsorted : basePrimes.Pairwise (fun a b => a < b))
    (hmem : ∀ p : Int, p ∈ basePrimes ↔ (2 ≤ p ∧ p ≤ S ∧ Nat.Prime p.toNat)) :
    IsFirstPrimes (mergeBase basePrimes primes) ∧
      (mergeBase basePrimes primes).length = max primes.length basePrimes.length ∧
      mergeBase basePrimes primes =
        primes ++ basePrimes.filter (fun bp => decide (primes.length = 0 ∨ lastOf primes < bp)) := by
  refine ⟨?_, ?_, mergeBase_eq_filter basePrimes primes hsorted⟩
  · obtain ⟨m, rfl⟩ := isFirstPrimes_eq_primesUpTo primes hprimes
    rw [eq_primesUpTo_of_mem basePrimes S hsorted hmem, mergeBase_primesUpTo]
    exact primesUpTo_isFirstPrimes _
  · obtain ⟨m, rfl⟩ := isFirstPrimes_eq_primesUpTo primes hprimes
    rw [eq_primesUpTo_of_mem basePrimes S hsorted hmem, mergeBase_primesUpTo]
    exact primesUpTo_max_length m S.toNat

theorem mergeBase_first_primes_witness :
    IsFirstPrimes [2, 3, 5] ∧ ([2, 3, 5, 7] : List Int).Pairwise (fun a b => a < b) ∧
      (∀ p : Int, p ∈ ([2, 3, 5, 7] : List Int) ↔ (2 ≤ p ∧ p ≤ 7 ∧ Nat.Prime p.toNat)) ∧
      mergeBase [2, 3, 5, 7] [2, 3, 5] = [2, 3, 5, 7] ∧
      (IsFirstPrimes (mergeBase [2, 3, 5, 7] [2, 3, 5]) ∧
        (mergeBase [2, 3, 5, 7] [2, 3, 5]).length =
          max ([2, 3, 5] : List Int).length ([2, 3, 5, 7] : List Int).length ∧
        mergeBase [2, 3, 5, 7] [2, 3, 5] =
          [2, 3, 5] ++ ([2, 3, 5, 7] : List Int).filter
            (fun bp => decide (([2, 3, 5] : List Int).length = 0 ∨ lastOf [2, 3, 5] < bp))) :=
  have hmem : ∀ p : Int, p ∈ ([2, 3, 5, 7] : List Int) ↔ (2 ≤ p ∧ p ≤ 7 ∧ Nat.Prime p.toNat) := by
    intro p
    rw [← primesUpTo_seven]
    simpa using mem_primesUpTo 7 p
  ⟨isFirstPrimes_235, by decide, hmem, by decide,
    mergeBase_first_primes [2, 3, 5, 7] [2, 3, 5] 7 isFirstPrimes_235 (by decide) hmem⟩

/-- C16: every loop of `generatePrimesUpTo` and of `NthPrime` ends. The checked
run, which stops with a fuel fault when a loop has used up its passes while its
condition still holds, never does so: `generatePrimesUpTo` returns for every
limit, and `NthPrime` on a cache that holds the first primes returns what the
plain run returns or stops at the fallback read. The strides of the crossing-off
loops are at least 2 and the window start grows by `segmentSize = 1000000`. -/
theorem loops_terminate (maxPrimeOf : Int → Int) (primes : List Int) (n limit : Int)
    (hprimes : IsFirstPrimes primes) :
    generatePrimesUpToChecked limit = .ok (generatePrimesUpTo limit) ∧
      NthPrimeChecked maxPrimeOf primes n ≠ .error Fault.fuel ∧
      ((∃ v, NthPrimeChecked maxPrimeOf primes n = .ok (v, (NthPrime maxPrimeOf primes n).2)) ∨
        NthPrimeChecked maxPrimeOf primes n = .error Fault.fallbackRead) ∧
      (∀ bp ∈ generatePrimesUpTo limit, 2 ≤ bp) ∧ segmentSize = 1000000 := by
  refine ⟨generatePrimesUpToChecked_eq limit, ?_, ?_, ?_, rfl⟩
  · rcases NthPrimeChecked_cases maxPrimeOf primes n hprimes with ⟨v, -, h⟩ | ⟨-, h⟩
    · rw [h]; intro hc; cases hc
    · rw [h]; intro hc; cases hc
  · rcases NthPrimeChecked_cases maxPrimeOf primes n hprimes with ⟨v, -, h⟩ | ⟨-, h⟩
    · exact Or.inl ⟨v, h⟩
    · exact Or.inr h
  · intro bp hbp
    rw [generatePrimesUpTo_eq] at hbp
    exact ((mem_primesUpTo _ bp).1 hbp).1

theorem loops_terminate_witness :
    IsFirstPrimes [2, 3, 5] ∧
      (generatePrimesUpToChecked 30 = .ok (generatePrimesUpTo 30) ∧
        NthPrimeChecked (fun _ => 21) [2, 3, 5] 4 ≠ .error Fault.fuel ∧
        ((∃ v, NthPrimeChecked (fun _ => 21) [2, 3, 5] 4 =
            .ok (v, (NthPrime (fun _ => 21) [2, 3, 5] 4).2)) ∨
          NthPrimeChecked (fun _ => 21) [2, 3, 5] 4 = .error Fault.fallbackRead) ∧
        (∀ bp ∈ generatePrimesUpTo 30, 2 ≤ bp) ∧ segmentSize = 1000000) :=
  ⟨isFirstPrimes_235, loops_terminate (fun _ => 21) [2, 3, 5] 4 30 isFirstPrimes_235⟩

/-- C17: in a window `[low, high]` with `2 ≤ low ≤ high ≤ maxPrime`, crossed off
with all the primes up to `S` where `S * S > maxPrime`, the slot of `i` is still
set exactly when `i` is a prime greater than `S`. A base prime inside the window
is crossed off, and what the append loop adds to the cache is greater than `S`
and is no base prime. -/
theorem window_survivors (low high maxPrime : Int) (S : Nat) (basePrimes : List Int)
    (hlow : 2 ≤ low) (hlh : low ≤ high) (hhigh : high ≤ maxPrime)
    (hS : maxPrime < (S : Int) * S)
    (hmem : ∀ p : Int, p ∈ basePrimes ↔ (2 ≤ p ∧ p ≤ (S : Int) ∧ Nat.Prime p.toNat))
    (i : Int) (hi1 : low ≤ i) (hi2 : i ≤ high) :
    ((crossBase low high basePrimes
          (List.replicate (high - low + 1).toNat true)).getD (i - low).toNat false = true ↔
        (Nat.Prime i.toNat ∧ (S : Int) < i)) ∧
      (i ∈ basePrimes →
        (crossBase low high basePrimes
          (List.replicate (high - low + 1).toNat true)).getD (i - low).toNat false = false) ∧
      (∀ (n : Int) (ps : List Int) (x : Int),
        x ∈ (appendLoop n low high
          (crossBase low high basePrimes (List.replicate (high - low + 1).toNat true))
          (high - low + 1).toNat low ps).2 → x ∈ ps ∨ ((S : Int) < x ∧ x ∉ basePrimes)) := by
  have hsurv := window_survivor_of_mem low high S basePrimes hlow (by omega) hmem
  refine ⟨hsurv i hi1 hi2, ?_, ?_⟩
  · intro hbase
    have hle := ((hmem i).1 hbase).2.1
    cases hflag : (crossBase low high basePrimes
        (List.replicate (high - low + 1).toNat true)).getD (i - low).toNat false with
    | false => rfl
    | true =>
      have := ((hsurv i hi1 hi2).1 hflag).2
      omega
  · intro n ps x hx
    rcases appendLoop_mem n low high _ _ low ps x hx with h | ⟨h1, h2, h3⟩
    · exact Or.inl h
    · have hgt := ((hsurv x h1 h2).1 h3).2
      refine Or.inr ⟨hgt, fun hbase => ?_⟩
      have := ((hmem x).1 hbase).2.1
      omega

theorem window_survivors_witness :
    (2 : Int) ≤ 6 ∧ (6 : Int) ≤ 11 ∧ (11 : Int) ≤ 11 ∧ (11 : Int) < ((4 : Nat) : Int) * (4 : Nat) ∧
      (∀ p : Int, p ∈ ([2, 3] : List Int) ↔ (2 ≤ p ∧ p ≤ ((4 : Nat) : Int) ∧ Nat.Prime p.toNat)) ∧
      (6 : Int) ≤ 7 ∧ (7 : Int) ≤ 11 ∧
      (((crossBase 6 11 [2, 3]
            (List.replicate ((11 : Int) - 6 + 1).toNat true)).getD ((7 : Int) - 6).toNat false = true ↔
          (Nat.Prime (7 : Int).toNat ∧ ((4 : Nat) : Int) < 7)) ∧
        ((7 : Int) ∈ ([2, 3] : List Int) →
          (crossBase 6 11 [2, 3]
            (List.replicate ((11 : Int) - 6 + 1).toNat true)).getD ((7 : Int) - 6).toNat false = false) ∧
        (∀ (n : Int) (ps : List Int) (x : Int),
          x ∈ (appendLoop n 6 11
            (crossBase 6 11 [2, 3] (List.replicate ((11 : Int) - 6 + 1).toNat true))
            ((11 : Int) - 6 + 1).toNat 6 ps).2 →
            x ∈ ps ∨ (((4 : Nat) : Int) < x ∧ x ∉ ([2, 3] : List Int)))) :=
  have hmem : ∀ p : Int, p ∈ ([2, 3] : List Int) ↔
      (2 ≤ p ∧ p ≤ ((4 : Nat) : Int) ∧ Nat.Prime p.toNat) := by
    intro p
    rw [← primesUpTo_four]
    exact mem_primesUpTo 4 p
  ⟨by decide, by decide, by decide, by decide, hmem, by decide, by decide,
    window_survivors 6 11 11 4 [2, 3] (by decide) (by decide) (by decide) (by decide) hmem 7
      (by decide) (by decide)⟩

/-- C18: for `n ≥ 1` and a bound at least the `n`-th prime, the cache that
`NthPrime n` leaves on a fresh oracle is an initial part of
`generatePrimesUpTo maxPrime`, and the returned value is element `n` of that
list, the `n`-th prime. The same holds when the range is cut into windows of any
other width. -/
theorem segmented_sieve_agrees_with_plain (maxPrimeOf : Int → Int) (n : Int) (hn : 1 ≤ n)
    (hbound : (Nat.nth Nat.Prime n.toNat : Int) ≤ maxPrimeOf n) :
    (NthPrime maxPrimeOf [] n).2 <+: generatePrimesUpTo (maxPrimeOf n) ∧
      (NthPrime maxPrimeOf [] n).1 = (generatePrimesUpTo (maxPrimeOf n))[n.toNat]? ∧
      (NthPrime maxPrimeOf [] n).1 = some (Nat.nth Nat.Prime n.toNat : Int) ∧
      ∀ width : Int, 1 ≤ width →
        sieveToWidth width (maxPrimeOf n) [] n <+: generatePrimesUpTo (maxPrimeOf n) ∧
          (sieveToWidth width (maxPrimeOf n) [] n)[n.toNat]? =
            (generatePrimesUpTo (maxPrimeOf n))[n.toNat]? := by
  have hseg : (1 : Int) ≤ segmentSize := by unfold segmentSize; omega
  have hpath := NthPrime_sieve_path maxPrimeOf [] n hn (by simp; omega)
  obtain ⟨h1, h2, h3⟩ := sieveToWidth_empty segmentSize hseg (maxPrimeOf n) n hn hbound
  rw [sieveToWidth_segmentSize] at h1 h2
  rw [hpath]
  refine ⟨h1, by rw [h2, h3], h2, ?_⟩
  intro width hwidth
  obtain ⟨g1, g2, g3⟩ := sieveToWidth_empty width hwidth (maxPrimeOf n) n hn hbound
  exact ⟨g1, by rw [g2, g3]⟩

theorem segmented_sieve_agrees_with_plain_witness :
    (1 : Int) ≤ 4 ∧ (Nat.nth Nat.Prime (4 : Int).toNat : Int) ≤ (fun _ => 11) (4 : Int) ∧
      NthPrime (fun _ => 11) [] 4 = (some 11, [2, 3, 5, 7, 11]) ∧
      generatePrimesUpTo 11 = [2, 3, 5, 7, 11] ∧
      ((NthPrime (fun _ => 11) [] 4).2 <+: generatePrimesUpTo ((fun _ => 11) (4 : Int)) ∧
        (NthPrime (fun _ => 11) [] 4).1 =
          (generatePrimesUpTo ((fun _ => 11) (4 : Int)))[(4 : Int).toNat]? ∧
        (NthPrime (fun _ => 11) [] 4).1 = some (Nat.nth Nat.Prime (4 : Int).toNat : Int) ∧
        ∀ width : Int, 1 ≤ width →
          sieveToWidth width ((fun _ => 11) (4 : Int)) [] 4 <+:
              generatePrimesUpTo ((fun _ => 11) (4 : Int)) ∧
            (sieveToWidth width ((fun _ => 11) (4 : Int)) [] 4)[(4 : Int).toNat]? =
              (generatePrimesUpTo ((fun _ => 11) (4 : Int)))[(4 : Int).toNat]?) :=
  have hb : (Nat.nth Nat.Prime (4 : Int).toNat : Int) ≤ (fun _ => 11) (4 : Int) := by
    have h : (4 : Int).toNat = 4 := rfl
    rw [h, nth_prime_four]
    decide
  ⟨by decide, hb, by decide, by decide,
    segmented_sieve_agrees_with_plain (fun _ => 11) 4 (by decide) hb⟩

/-- C19: for `n ≥ 1` on a cache that holds the first primes, the checked run of
`NthPrime`, which stops at any access outside a slice and at any window whose
length is not between 1 and `segmentSize`, stops nowhere but at the fallback
read: no access to a segment or to `isPrime` is out of range, every window has
between 1 and 1000000 slots, and the early read of `cache[n]` is in range. The
checked run of `generatePrimesUpTo` returns for every limit. -/
theorem index_safety (maxPrimeOf : Int → Int) (primes : List Int) (n limit : Int)
    (hprimes : IsFirstPrimes primes) (hn : 1 ≤ n) :
    ((∃ v, NthPrimeChecked maxPrimeOf primes n = .ok (v, (NthPrime maxPrimeOf primes n).2)) ∨
        NthPrimeChecked maxPrimeOf primes n = .error Fault.fallbackRead) ∧
      NthPrimeChecked maxPrimeOf primes n ≠ .error Fault.segmentIndex ∧
      NthPrimeChecked maxPrimeOf primes n ≠ .error Fault.isPrimeIndex ∧
      NthPrimeChecked maxPrimeOf primes n ≠ .error Fault.windowSize ∧
      NthPrimeChecked maxPrimeOf primes n ≠ .error Fault.earlyRead ∧
      generatePrimesUpToChecked limit = .ok (generatePrimesUpTo limit) ∧
      (∀ low : Int, low ≤ maxPrimeOf n →
        1 ≤ highOf (maxPrimeOf n) low - low + 1 ∧
          highOf (maxPrimeOf n) low - low + 1 ≤ 1000000) := by
  have hcases := NthPrimeChecked_cases maxPrimeOf primes n hprimes
  have hne : ∀ f : Fault, f ≠ Fault.fallbackRead →
      NthPrimeChecked maxPrimeOf primes n ≠ .error f := by
    intro f hf hc
    rcases hcases with ⟨v, -, h⟩ | ⟨-, h⟩
    · rw [h] at hc; cases hc
    · rw [h] at hc
      exact hf (Except.error.inj hc).symm
  refine ⟨?_, hne _ (by decide), hne _ (by decide), hne _ (by decide), hne _ (by decide),
    generatePrimesUpToChecked_eq limit, ?_⟩
  · rcases hcases with ⟨v, -, h⟩ | ⟨-, h⟩
    · exact Or.inl ⟨v, h⟩
    · exact Or.inr h
  · intro low hlow
    have := window_length (maxPrimeOf n) low hlow
    unfold segmentSize at this
    exact this

theorem index_safety_witness :
    IsFirstPrimes [2, 3, 5] ∧ (1 : Int) ≤ 4 ∧
      NthPrimeChecked (fun _ => 21) [2, 3, 5] 4 = .ok (11, [2, 3, 5, 7, 11]) ∧
      (((∃ v, NthPrimeChecked (fun _ => 21) [2, 3, 5] 4 =
            .ok (v, (NthPrime (fun _ => 21) [2, 3, 5] 4).2)) ∨
          NthPrimeChecked (fun _ => 21) [2, 3, 5] 4 = .error Fault.fallbackRead) ∧
        NthPrimeChecked (fun _ => 21) [2, 3, 5] 4 ≠ .error Fault.segmentIndex ∧
        NthPrimeChecked (fun _ => 21) [2, 3, 5] 4 ≠ .error Fault.isPrimeIndex ∧
        NthPrimeChecked (fun _ => 21) [2, 3, 5] 4 ≠ .error Fault.windowSize ∧
        NthPrimeChecked (fun _ => 21) [2, 3, 5] 4 ≠ .error Fault.earlyRead ∧
        generatePrimesUpToChecked 30 = .ok (generatePrimesUpTo 30) ∧
        (∀ low : Int, low ≤ (fun _ => 21) (4 : Int) →
          1 ≤ highOf ((fun _ => 21) (4 : Int)) low - low + 1 ∧
            highOf ((fun _ => 21) (4 : Int)) low - low + 1 ≤ 1000000)) :=
  ⟨isFirstPrimes_235, by decide, by rfl,
    index_safety (fun _ => 21) [2, 3, 5] 4 30 isFirstPrimes_235 (by decide)⟩

end Sieve
